import Mathlib

/-!
Router queue simulation (`router.cpp`).


A shallow embedding of the discrete-event engine of `router.cpp`: the pending-event
multiset ordered by `event_comparator`, the bounded FIFO `buffer`, the `buffer_log`
set of ids that already have a Departure, and the `simulation_stats` accumulator.

Modelling conventions.
* Times are rationals. The clock (`long double`) is computed exactly; the conversion
  of the clock to the `double` time of a new event, at the three calls of
  `new_event` in `main`, is the rounding `to_double` (nearest, ties to even, 53
  significant bits, unbounded exponent). Arrival times of the trace are taken as
  given. There is no NaN and no infinity; a division by zero yields 0 where the
  source yields an infinity or a NaN, so a statement about the value of the clock is
  meant for a non-zero bandwidth.
* `int` / `long` counters and sizes are integers; no overflow is reachable for the
  counters, and `event_size * 8` wraps to a 64-bit `long` (`wrap_long`).
* `std::multiset<packet_event, decltype(event_comparator)>` is a list kept in the
  order the container iterates in: `insert` places an element at the upper bound of
  its equivalence range, `begin()` is the head, `erase(begin())` is the tail.
* `std::set<int> buffer_log` is a list of the ids inserted so far.
* The `while` loop of `main` and its nested drain `while` loop are a single
  small-step machine: one step is either one iteration of the outer loop up to (and
  including) the scheduling block, the first half of a Departure (up to the start of
  the drain loop), one iteration of the drain loop, or the exit of the drain loop
  followed by `remove_buffer_event` and the scheduling block.
* Reading `buffer.begin()` or erasing it on an empty vector (undefined behaviour) and
  `exit(1)` in `new_event` make a step return `none`.
-/

namespace Router

/-! ## Constants and arithmetic helpers -/

/-- ARRIVAL category constant of the source. -/
abbrev ARRIVAL : Int := 0

/-- DEPARTURE category constant of the source. -/
abbrev DEPARTURE : Int := 1

/-- DROPPED category constant of the source. -/
abbrev DROPPED : Int := 2

/-- The value a 64-bit two's complement `long` holds after an arithmetic result `x`:
`x` reduced modulo `2 ^ 64` into the range from `-2 ^ 63` to `2 ^ 63 - 1`. -/
def wrap_long (x : Int) : Int :=
  (x + 2 ^ 63) % 2 ^ 64 - 2 ^ 63

/-- Rounding of a rational to the nearest integer, ties to the even one. -/
def round_half_even (q : ℚ) : Int :=
  let f : Int := q.floor
  let r : ℚ := q - (f : ℚ)
  if r < 1 / 2 then f
  else if 1 / 2 < r then f + 1
  else if f % 2 = 0 then f else f + 1

/-- Number of halvings that take `n` below 2, at most `fuel` of them. -/
def halvings : Nat → Nat → Nat
  | 0, _ => 0
  | fuel + 1, n => if n < 2 then 0 else halvings fuel (n / 2) + 1

/-- The integer part of the binary logarithm of `n` (0 for `n = 0`). -/
def floor_log2 (n : Nat) : Nat :=
  halvings n n

/-- The binary exponent of a non-zero rational `q`: the integer `e` with
`2 ^ e ≤ |q| < 2 ^ (e + 1)`. -/
def binary_exponent (q : ℚ) : Int :=
  let a : Int := (floor_log2 q.num.natAbs : Nat)
  let b : Int := (floor_log2 q.den : Nat)
  let m : ℚ := if q < 0 then -q else q
  if (2 : ℚ) ^ (a - b) ≤ m then a - b else a - b - 1

/-- The conversion of a `long double` value to `double`: rounding to 53 significant
bits, to nearest, ties to even (the exponent range is taken unbounded). -/
def to_double (q : ℚ) : ℚ :=
  if q = 0 then 0
  else
    (round_half_even (q / (2 : ℚ) ^ (binary_exponent q - 52)) : ℚ) *
      (2 : ℚ) ^ (binary_exponent q - 52)

/-- Time to place `event_size` bytes on a link of `wlan_bandwidth` bits per second;
the product `event_size * 8` is computed in a `long`. -/
def TRANSMISSION_DELAY (event_size wlan_bandwidth : Int) : ℚ :=
  ((wrap_long (event_size * 8) : Int) : ℚ) / (wlan_bandwidth : ℚ)

/-- Waiting time of a packet that arrived at `arrival_time` and starts service at
`current_time`. -/
def QUEUEING_DELAY (current_time arrival_time : ℚ) : ℚ :=
  current_time - arrival_time

/-- Average of the cumulative queueing delay over the served packets. -/
def QUEUEING_DELAY_AVERAGE (queueing_delay : ℚ) (packets_out : Int) : ℚ :=
  queueing_delay / (packets_out : ℚ)

/-! ## Data model -/

/-- The accumulator `struct simulation_stats`. -/
structure simulation_stats where
  buffer_space_left : Int
  time : ℚ
  queuing_delay : ℚ
  packets_lost : Int
  packets_in : Int
  packets_out : Int
  deriving DecidableEq

/-- The record `struct packet_event`. -/
structure packet_event where
  category : Int
  id : Int
  size : Int
  time : ℚ
  deriving DecidableEq

/-- The comparison lambda `event_comparator`: by time, and by category at equal
times. -/
def event_comparator (event_1 event_2 : packet_event) : Bool :=
  if event_1.time = event_2.time then decide (event_1.category < event_2.category)
  else decide (event_1.time < event_2.time)

/-- The call `events.insert(e)` of the multiset: the new element goes right before the
first element that compares strictly after it (the upper bound of its equivalence
range), so equivalent elements keep their insertion order. -/
def events_insert (e : packet_event) : List packet_event → List packet_event
  | [] => [e]
  | x :: xs => if event_comparator e x then e :: x :: xs else x :: events_insert e xs

/-- The function `new_event`; `none` stands for the `exit(1)` branch. -/
def new_event (new_id : Int) (new_time : ℚ) (new_size : Int) (category : Int) :
    Option packet_event :=
  if category = ARRIVAL ∨ category = DEPARTURE ∨ category = DROPPED then
    some { category := category, id := new_id, size := new_size, time := new_time }
  else none

/-- The function `add_buffer_event`: one slot less, the event goes to the tail. -/
def add_buffer_event (current_stats : simulation_stats) (event_to_add : packet_event)
    (buffer : List packet_event) : simulation_stats × List packet_event :=
  ({ current_stats with buffer_space_left := current_stats.buffer_space_left - 1 },
    buffer ++ [event_to_add])

/-- The function `remove_buffer_event`: erase the head, one slot more. Erasing
`begin()` of an empty vector is undefined, modelled as `none`. -/
def remove_buffer_event (current_stats : simulation_stats) (buffer : List packet_event) :
    Option (simulation_stats × List packet_event) :=
  match buffer with
  | [] => none
  | _ :: rest =>
    some ({ current_stats with buffer_space_left := current_stats.buffer_space_left + 1 },
      rest)

/-- The state of the engine loop of `main`. The fields `events`, `buffer`,
`buffer_log` and `stats` are the local variables of `main`; `draining` tells whether
control is inside the drain loop of a Departure. The last two fields are history
variables that the engine never reads: the ids passed to `add_buffer_event`, in call
order, and the ids of the Departure events dispatched, in dispatch order. -/
structure State where
  events : List packet_event
  buffer : List packet_event
  buffer_log : List Int
  stats : simulation_stats
  draining : Bool
  admitted : List Int
  departed : List Int
  deriving DecidableEq

/-! ## Trace ingestion -/

/-- The file-reading loop of `main`: every record `(time, size)` becomes an Arrival
event whose id is the running counter `packets_read`, inserted into `events`. -/
def read_trace : List (ℚ × Int) → Int → List packet_event → List packet_event
  | [], _, events => events
  | (t, sz) :: rest, packets_read, events =>
    read_trace rest (packets_read + 1)
      (events_insert { category := ARRIVAL, id := packets_read, size := sz, time := t }
        events)

/-- The state right before the engine loop is entered. -/
def init (buffer_length : Int) (trace : List (ℚ × Int)) : State :=
  { events := read_trace trace 0 []
    buffer := []
    buffer_log := []
    stats :=
      { buffer_space_left := buffer_length, time := 0, queuing_delay := 0,
        packets_lost := 0, packets_in := 0, packets_out := 0 }
    draining := false
    admitted := []
    departed := [] }

/-! ## The engine -/

/-- The scheduling block that ends every iteration of the outer loop: fast-forward
the clock to the head of the buffer when nothing is pending before it, and create
the Departure of the head unless its id is in `buffer_log`. -/
def schedule (s : State) : Option State :=
  match s.buffer with
  | [] => some s
  | front_event :: _ =>
    let time1 : ℚ :=
      match s.events with
      | [] => s.stats.time
      | next :: _ =>
        if s.stats.time < front_event.time ∧ next.time ≥ front_event.time then
          front_event.time
        else s.stats.time
    if time1 ≥ front_event.time ∧ front_event.id ∉ s.buffer_log then
      (new_event front_event.id (to_double time1) front_event.size DEPARTURE).map fun d =>
        { s with
          stats := { s.stats with time := time1 }
          buffer_log := front_event.id :: s.buffer_log
          events := events_insert d s.events }
    else
      some { s with stats := { s.stats with time := time1 } }

/-- One iteration of the outer loop, entered with `events` non-empty. For an Arrival
or a Dropped event the whole iteration is done; for a Departure the step stops where
the drain loop starts. -/
def main_step (wlan_bandwidth : Int) (s : State) : Option State :=
  match s.events with
  | [] => none
  | event :: rest =>
    if event.category = ARRIVAL then
      let stats1 := { s.stats with packets_in := s.stats.packets_in + 1 }
      if stats1.buffer_space_left ≤ 0 then
        (new_event event.id (to_double stats1.time) event.size DROPPED).bind fun d =>
          schedule { s with events := events_insert d rest, stats := stats1 }
      else
        schedule
          { s with
            events := rest
            stats := (add_buffer_event stats1 event s.buffer).1
            buffer := (add_buffer_event stats1 event s.buffer).2
            admitted := s.admitted ++ [event.id] }
    else if event.category = DROPPED then
      schedule
        { s with
          events := rest
          stats := { s.stats with packets_lost := s.stats.packets_lost + 1 } }
    else if event.category = DEPARTURE then
      match s.buffer with
      | [] => none
      | head :: _ =>
        some
          { s with
            events := rest
            stats :=
              { s.stats with
                packets_out := s.stats.packets_out + 1
                queuing_delay :=
                  s.stats.queuing_delay + QUEUEING_DELAY s.stats.time head.time
                time := s.stats.time + TRANSMISSION_DELAY event.size wlan_bandwidth }
            draining := true
            departed := s.departed ++ [event.id] }
    else
      schedule { s with events := rest }

/-- The exit of the drain loop: `remove_buffer_event`, then the scheduling block. -/
def leave_drain (s : State) : Option State :=
  (remove_buffer_event s.stats s.buffer).bind fun r =>
    schedule { s with stats := r.1, buffer := r.2, draining := false }

/-- One iteration of the drain loop of a Departure (or its exit). -/
def drain_step (s : State) : Option State :=
  match s.events with
  | [] => leave_drain s
  | last_event :: rest =>
    if last_event.category = DEPARTURE ∨ last_event.time > s.stats.time then
      leave_drain s
    else if last_event.category = DROPPED then
      some
        { s with
          events := rest
          stats := { s.stats with packets_lost := s.stats.packets_lost + 1 } }
    else
      let stats1 := { s.stats with packets_in := s.stats.packets_in + 1 }
      if stats1.buffer_space_left ≤ 0 then
        (new_event last_event.id (to_double stats1.time) last_event.size DROPPED).map fun d =>
          { s with events := events_insert d rest, stats := stats1 }
      else
        some
          { s with
            events := rest
            stats := (add_buffer_event stats1 last_event s.buffer).1
            buffer := (add_buffer_event stats1 last_event s.buffer).2
            admitted := s.admitted ++ [last_event.id] }

/-- One step of the engine. -/
def step (wlan_bandwidth : Int) (s : State) : Option State :=
  if s.draining then drain_step s else main_step wlan_bandwidth s

/-- The outer loop condition fails: nothing is pending and no drain is under way. -/
def halted (s : State) : Bool :=
  !s.draining && s.events.isEmpty

/-- Run the engine for at most `fuel` steps; `some s` when the loop has ended in
`s`. -/
def run (wlan_bandwidth : Int) : Nat → State → Option State
  | 0, s => if halted s then some s else none
  | fuel + 1, s =>
    if halted s then some s else (step wlan_bandwidth s).bind (run wlan_bandwidth fuel)

/-- The whole of `main` after argument parsing: ingest the trace and run the loop.
Three steps per record plus one always suffice (see `simulate_terminates`). -/
def simulate (buffer_length wlan_bandwidth : Int) (trace : List (ℚ × Int)) :
    Option State :=
  run wlan_bandwidth (3 * trace.length) (init buffer_length trace)

/-- The values printed by `print_stats`. -/
structure Report where
  time : ℚ
  packets_in : Int
  packets_out : Int
  packets_lost : Int
  lost_packets : ℚ
  average_queueing_delay : ℚ
  deriving DecidableEq

/-- The function `print_stats`, as the tuple of values it prints. With no packet in
(or none out) the quotient is 0 here, where the source prints a NaN. -/
def print_stats (stats : simulation_stats) : Report :=
  { time := stats.time
    packets_in := stats.packets_in
    packets_out := stats.packets_out
    packets_lost := stats.packets_lost
    lost_packets := ((stats.packets_lost : ℚ) / (stats.packets_in : ℚ)) * 100
    average_queueing_delay := QUEUEING_DELAY_AVERAGE stats.queuing_delay stats.packets_out }

/-- States the engine can be in, from the initial state of a run. -/
inductive Reachable (buffer_length wlan_bandwidth : Int) (trace : List (ℚ × Int)) :
    State → Prop
  | start : Reachable buffer_length wlan_bandwidth trace (init buffer_length trace)
  | next {s s' : State} :
      Reachable buffer_length wlan_bandwidth trace s →
      step wlan_bandwidth s = some s' →
      Reachable buffer_length wlan_bandwidth trace s'

/-! ## Notions used in the statements and proofs -/

/-- The clock value the scheduling block works with after its fast-forward test. -/
def schedule_time (s : State) (front_event : packet_event) : ℚ :=
  match s.events with
  | [] => s.stats.time
  | next :: _ =>
    if s.stats.time < front_event.time ∧ next.time ≥ front_event.time then
      front_event.time
    else s.stats.time

/-- The elementary state changes of the engine, without the scheduling block that
may follow them. Both dispatch sites (outer loop and drain loop) are covered. -/
inductive Micro (wlan_bandwidth : Int) (s : State) : State → Prop
  | drop_tail (e : packet_event) (rest : List packet_event)
      (hev : s.events = e :: rest)
      (hcat : e.category ≠ DEPARTURE ∧ e.category ≠ DROPPED)
      (hmain : s.draining = false → e.category = ARRIVAL)
      (hdrain : s.draining = true → e.time ≤ s.stats.time)
      (hfull : s.stats.buffer_space_left ≤ 0) :
      Micro wlan_bandwidth s
        { s with
          events := events_insert
            { category := DROPPED, id := e.id, size := e.size,
              time := to_double s.stats.time } rest
          stats := { s.stats with packets_in := s.stats.packets_in + 1 } }
  | enqueue (e : packet_event) (rest : List packet_event)
      (hev : s.events = e :: rest)
      (hcat : e.category ≠ DEPARTURE ∧ e.category ≠ DROPPED)
      (hmain : s.draining = false → e.category = ARRIVAL)
      (hdrain : s.draining = true → e.time ≤ s.stats.time)
      (hroom : 0 < s.stats.buffer_space_left) :
      Micro wlan_bandwidth s
        { s with
          events := rest
          stats :=
            { s.stats with
              packets_in := s.stats.packets_in + 1
              buffer_space_left := s.stats.buffer_space_left - 1 }
          buffer := s.buffer ++ [e]
          admitted := s.admitted ++ [e.id] }
  | lose (e : packet_event) (rest : List packet_event)
      (hev : s.events = e :: rest)
      (hcat : e.category = DROPPED)
      (hdrain : s.draining = true → e.time ≤ s.stats.time) :
      Micro wlan_bandwidth s
        { s with
          events := rest
          stats := { s.stats with packets_lost := s.stats.packets_lost + 1 } }
  | depart (e : packet_event) (rest : List packet_event) (head : packet_event)
      (brest : List packet_event)
      (hev : s.events = e :: rest)
      (hcat : e.category = DEPARTURE)
      (hmain : s.draining = false)
      (hbuf : s.buffer = head :: brest) :
      Micro wlan_bandwidth s
        { s with
          events := rest
          stats :=
            { s.stats with
              packets_out := s.stats.packets_out + 1
              queuing_delay := s.stats.queuing_delay + QUEUEING_DELAY s.stats.time head.time
              time := s.stats.time + TRANSMISSION_DELAY e.size wlan_bandwidth }
          draining := true
          departed := s.departed ++ [e.id] }
  | skip (e : packet_event) (rest : List packet_event)
      (hev : s.events = e :: rest)
      (hcat : e.category ≠ ARRIVAL ∧ e.category ≠ DROPPED ∧ e.category ≠ DEPARTURE)
      (hmain : s.draining = false) :
      Micro wlan_bandwidth s { s with events := rest }
  | leave (head : packet_event) (brest : List packet_event)
      (hstop : s.events = [] ∨
        ∃ e rest, s.events = e :: rest ∧ (e.category = DEPARTURE ∨ e.time > s.stats.time))
      (hdrain : s.draining = true)
      (hbuf : s.buffer = head :: brest) :
      Micro wlan_bandwidth s
        { s with
          stats := { s.stats with buffer_space_left := s.stats.buffer_space_left + 1 }
          buffer := brest
          draining := false }

/-- Occupancy invariant: the buffer length and the free-slot counter add up to the
configured capacity. -/
def occupancy_ok (cap : Int) (s : State) : Prop :=
  (s.buffer.length : Int) + s.stats.buffer_space_left = cap

/-- Number of pending Dropped events. -/
def pending_dropped (s : State) : Nat :=
  s.events.countP fun e => decide (e.category = DROPPED)

/-- Conservation invariant: every packet counted in is lost, out, buffered, or has a
Dropped event pending; during a drain the packet in service is counted out while it
is still at the head of the buffer. -/
def conservation_ok (s : State) : Prop :=
  s.stats.packets_in + (if s.draining then 1 else 0) =
    s.stats.packets_lost + s.stats.packets_out + (s.buffer.length : Int) +
      (pending_dropped s : Int)

/-- The pending Departure events, in container order. -/
def pending_departures (s : State) : List packet_event :=
  s.events.filter fun e => decide (e.category = DEPARTURE)

/-- Departure invariant: at most one Departure is pending, it belongs to the buffer
head, whose id is logged, and none is pending while a drain is under way (the buffer
then still holds the packet in service). -/
def departure_ok (s : State) : Prop :=
  (pending_departures s = [] ∨
    (s.draining = false ∧ ∃ d h rest, pending_departures s = [d] ∧ s.buffer = h :: rest ∧
      d.id = h.id ∧ d.size = h.size ∧ h.id ∈ s.buffer_log)) ∧
  (s.draining = true → s.buffer ≠ [])

/-- Steps an event can still cause: a Dropped event one, a Departure two (start of
service and end of drain), anything else three (it may turn into a Dropped event or
into a buffered packet that gets a Departure). -/
def event_weight (e : packet_event) : Nat :=
  if e.category = DROPPED then 1 else if e.category = DEPARTURE then 2 else 3

/-- Steps a buffered packet can still cause: a Departure, unless its id is logged. -/
def buffer_weight (log : List Int) (p : packet_event) : Nat :=
  if p.id ∈ log then 0 else 2

/-- The termination measure of the engine. -/
def remaining (s : State) : Nat :=
  (s.events.map event_weight).sum + (s.buffer.map (buffer_weight s.buffer_log)).sum +
    (if s.draining then 1 else 0)

/-- Exactly `n` steps of the engine from `s`. -/
def steps (wlan_bandwidth : Int) : Nat → State → Option State
  | 0, s => some s
  | n + 1, s => (step wlan_bandwidth s).bind (steps wlan_bandwidth n)

/-- Events-order invariant: no pending event compares strictly before an earlier
one in the container order. -/
def events_sorted (s : State) : Prop :=
  s.events.Pairwise fun a b => event_comparator b a = false

/-- Size invariant: every pending event and every buffered packet has a positive
size below `2 ^ 60`, so that eight times the size fits a `long`. -/
def sizes_ok (s : State) : Prop :=
  (∀ e ∈ s.events, 0 < e.size ∧ e.size < 2 ^ 60) ∧
  (∀ p ∈ s.buffer, 0 < p.size ∧ p.size < 2 ^ 60)

/-- Service-order invariant: the admitted ids are the departed ids followed by the
ids in the buffer; during a drain the last departed id is still the buffer head. -/
def fifo_ok (s : State) : Prop :=
  (s.draining = false → s.admitted = s.departed ++ s.buffer.map (fun p => p.id)) ∧
  (s.draining = true → ∃ h rest dp, s.buffer = h :: rest ∧ s.departed = dp ++ [h.id] ∧
    s.admitted = dp ++ s.buffer.map (fun p => p.id))

/-- Arrival-count invariant for a trace of `n` records: every pending event has one
of the three categories, and the packets counted in plus the pending Arrival events
are the `n` records. -/
def arrivals_ok (n : Nat) (s : State) : Prop :=
  (∀ e ∈ s.events, e.category = ARRIVAL ∨ e.category = DEPARTURE ∨ e.category = DROPPED) ∧
  s.stats.packets_in + ((s.events.countP fun e => decide (e.category = ARRIVAL) : Nat) : Int)
    = (n : Int)

/-- Two traces differ only by re-ordering records that share an arrival time: the
arrival times agree position by position and the records are the same multiset. -/
def reorders_equal_time (t1 t2 : List (ℚ × Int)) : Prop :=
  t1.map Prod.fst = t2.map Prod.fst ∧ t1.Perm t2

/-! ## Sample run

Capacity 1, bandwidth 8 bits per second, three records: two at time 0 (sizes 2 and
1) and one at time 3/2 (size 1). -/

/-- The trace of the sample run. -/
def sample_trace : List (ℚ × Int) := [(0, 2), (0, 1), (3 / 2, 1)]

/-- The sample run after the first iteration of the outer loop: packet 0 is buffered
and its Departure is pending. -/
def sample_first : State :=
  { events :=
      [{ category := ARRIVAL, id := 1, size := 1, time := 0 },
       { category := DEPARTURE, id := 0, size := 2, time := 0 },
       { category := ARRIVAL, id := 2, size := 1, time := 3 / 2 }]
    buffer := [{ category := ARRIVAL, id := 0, size := 2, time := 0 }]
    buffer_log := [0]
    stats :=
      { buffer_space_left := 0, time := 0, queuing_delay := 0, packets_lost := 0,
        packets_in := 1, packets_out := 0 }
    draining := false
    admitted := [0]
    departed := [] }

/-- The sample run after two iterations of the outer loop: packet 0 is buffered with
its Departure pending, packet 1 has a Dropped event pending. -/
def sample_pending : State :=
  { events :=
      [{ category := DEPARTURE, id := 0, size := 2, time := 0 },
       { category := DROPPED, id := 1, size := 1, time := 0 },
       { category := ARRIVAL, id := 2, size := 1, time := 3 / 2 }]
    buffer := [{ category := ARRIVAL, id := 0, size := 2, time := 0 }]
    buffer_log := [0]
    stats :=
      { buffer_space_left := 0, time := 0, queuing_delay := 0, packets_lost := 0,
        packets_in := 2, packets_out := 0 }
    draining := false
    admitted := [0]
    departed := [] }

/-- The sample run one step later, at the start of the drain loop of packet 0. -/
def sample_drain : State :=
  { events :=
      [{ category := DROPPED, id := 1, size := 1, time := 0 },
       { category := ARRIVAL, id := 2, size := 1, time := 3 / 2 }]
    buffer := [{ category := ARRIVAL, id := 0, size := 2, time := 0 }]
    buffer_log := [0]
    stats :=
      { buffer_space_left := 0, time := 2, queuing_delay := 0, packets_lost := 0,
        packets_in := 2, packets_out := 1 }
    draining := true
    admitted := [0]
    departed := [0] }

/-! ## A burst at time 0 into a buffer of capacity 1 -/

/-- The Arrival events of records of the given sizes that all arrive at time 0, with
ids counted from `n`. -/
def arrivals_at_zero (n : Int) : List Int → List packet_event
  | [] => []
  | sz :: rest =>
    { category := ARRIVAL, id := n, size := sz, time := 0 } :: arrivals_at_zero (n + 1) rest

/-- The Dropped event created at clock 0 for the arrival `a`. -/
def drop_at_zero (a : packet_event) : packet_event :=
  { category := DROPPED, id := a.id, size := a.size, time := 0 }

/-- The Departure event of packet 0 created at clock 0. -/
def departure_at_zero (sz0 : Int) : packet_event :=
  { category := DEPARTURE, id := 0, size := sz0, time := 0 }

/-- State of the burst run while the clock is 0: packet 0 (size `sz0`) fills the
buffer, `pend` are the arrivals not yet processed, `drops` the Dropped events created
so far and `m` the number of packets counted in. -/
def burst_state (sz0 : Int) (pend drops : List packet_event) (m : Int) : State :=
  { events := pend ++ departure_at_zero sz0 :: drops
    buffer := [{ category := ARRIVAL, id := 0, size := sz0, time := 0 }]
    buffer_log := [0]
    stats :=
      { buffer_space_left := 0, time := 0, queuing_delay := 0, packets_lost := 0,
        packets_in := m, packets_out := 0 }
    draining := false
    admitted := [0]
    departed := [] }

/-- State of the burst run inside the drain loop of packet 0: `drops` are the Dropped
events still pending and `l` the number of packets counted lost. -/
def burst_drain (sz0 bw : Int) (drops : List packet_event) (m l : Int) : State :=
  { events := drops
    buffer := [{ category := ARRIVAL, id := 0, size := sz0, time := 0 }]
    buffer_log := [0]
    stats :=
      { buffer_space_left := 0, time := TRANSMISSION_DELAY sz0 bw, queuing_delay := 0,
        packets_lost := l, packets_in := m, packets_out := 1 }
    draining := true
    admitted := [0]
    departed := [0] }

/-- Final state of the burst run. -/
def burst_final (sz0 bw : Int) (m l : Int) : State :=
  { events := []
    buffer := []
    buffer_log := [0]
    stats :=
      { buffer_space_left := 1, time := TRANSMISSION_DELAY sz0 bw, queuing_delay := 0,
        packets_lost := l, packets_in := m, packets_out := 1 }
    draining := false
    admitted := [0]
    departed := [0] }

/-- State of the burst run after the drain loop of packet 0 was left with Dropped
events still pending (the transmission delay wrapped to a negative value): the
outer loop processes `drops`. With no event pending this is `burst_final`. -/
def burst_tail (sz0 bw : Int) (drops : List packet_event) (m l : Int) : State :=
  { events := drops
    buffer := []
    buffer_log := [0]
    stats :=
      { buffer_space_left := 1, time := TRANSMISSION_DELAY sz0 bw, queuing_delay := 0,
        packets_lost := l, packets_in := m, packets_out := 1 }
    draining := false
    admitted := [0]
    departed := [0] }

/-! ## Notions for the bookkeeping of events, slots and configuration -/

/-- Event-count invariant: every Departure created (one per id put in `buffer_log`)
is either dispatched or pending, and every packet counted in was either passed to
`add_buffer_event` or got a Dropped event, which is either processed or pending. -/
def counts_ok (s : State) : Prop :=
  s.stats.packets_out +
      ((s.events.countP fun e => decide (e.category = DEPARTURE) : Nat) : Int) =
    (s.buffer_log.length : Int) ∧
  s.stats.packets_lost + (pending_dropped s : Int) + (s.admitted.length : Int) =
    s.stats.packets_in

/-- Free-slot invariant: the free-slot counter is not negative. -/
def space_ok (s : State) : Prop :=
  0 ≤ s.stats.buffer_space_left

/-- Invariant of a run with a non-positive capacity: nothing is ever buffered or
served. -/
def starved (s : State) : Prop :=
  s.buffer = [] ∧ s.stats.buffer_space_left ≤ 0 ∧ s.stats.packets_out = 0 ∧
    s.draining = false

/-! ## Notions for the Arrival rule, the drain loop and the queueing delay -/

/-- The Arrival rule in the words of the specification: count the packet in; with no
free space insert a Dropped event for the same id and size, timestamped with the
current clock; otherwise admit the event at the tail of the buffer. -/
def arrival_effect_spec (s : State) (e : packet_event) (rest : List packet_event) :
    State :=
  if s.stats.buffer_space_left ≤ 0 then
    { s with
      events := events_insert
        { category := DROPPED, id := e.id, size := e.size, time := s.stats.time } rest
      stats := { s.stats with packets_in := s.stats.packets_in + 1 } }
  else
    { s with
      events := rest
      buffer := s.buffer ++ [e]
      stats :=
        { s.stats with
          packets_in := s.stats.packets_in + 1
          buffer_space_left := s.stats.buffer_space_left - 1 }
      admitted := s.admitted ++ [e.id] }

/-- The Arrival rule with the timestamp as the code makes it: as `arrival_effect_spec`,
but the Dropped event is timestamped with the current clock converted to `double`. -/
def arrival_effect (s : State) (e : packet_event) (rest : List packet_event) : State :=
  if s.stats.buffer_space_left ≤ 0 then
    { s with
      events := events_insert
        { category := DROPPED, id := e.id, size := e.size,
          time := to_double s.stats.time } rest
      stats := { s.stats with packets_in := s.stats.packets_in + 1 } }
  else
    { s with
      events := rest
      buffer := s.buffer ++ [e]
      stats :=
        { s.stats with
          packets_in := s.stats.packets_in + 1
          buffer_space_left := s.stats.buffer_space_left - 1 }
      admitted := s.admitted ++ [e.id] }

/-- The exit test of the drain loop: nothing is pending, or the next pending event is
a Departure or lies after the clock. -/
def drain_done (s : State) : Bool :=
  match s.events with
  | [] => true
  | last_event :: _ =>
    decide (last_event.category = DEPARTURE ∨ last_event.time > s.stats.time)

/-- Queueing-delay invariant: the cumulative queueing delay is not negative, and
while a Departure is pending the clock has reached the arrival time of the buffer
head. -/
def delay_ok (s : State) : Prop :=
  0 ≤ s.stats.queuing_delay ∧
  (s.draining = false → pending_departures s ≠ [] →
    ∀ h, s.buffer.head? = some h → h.time ≤ s.stats.time)

/-- Scenario D at the start of the drain loop of packet A: B is pending at time 10
and the clock is at the end of the transmission of A. -/
def gap_drain : State :=
  { events := [{ category := ARRIVAL, id := 1, size := 100, time := 10 }]
    buffer := [{ category := ARRIVAL, id := 0, size := 100, time := 0 }]
    buffer_log := [0]
    stats :=
      { buffer_space_left := 4, time := 1 / 1250, queuing_delay := 0, packets_lost := 0,
        packets_in := 1, packets_out := 1 }
    draining := true
    admitted := [0]
    departed := [0] }

/-- Capacity 1, bandwidth 8, one record of `2 ^ 60` bytes at time 0, after the first
iteration of the outer loop: the packet is buffered and its Departure is pending. -/
def overflow_pending : State :=
  { events := [{ category := DEPARTURE, id := 0, size := 2 ^ 60, time := 0 }]
    buffer := [{ category := ARRIVAL, id := 0, size := 2 ^ 60, time := 0 }]
    buffer_log := [0]
    stats :=
      { buffer_space_left := 0, time := 0, queuing_delay := 0, packets_lost := 0,
        packets_in := 1, packets_out := 0 }
    draining := false
    admitted := [0]
    departed := [] }

/-- The run of `overflow_pending` one step later: `2 ^ 60 * 8` wraps to `-2 ^ 63` and
the clock is `-2 ^ 63 / 8`. -/
def overflow_drain : State :=
  { events := []
    buffer := [{ category := ARRIVAL, id := 0, size := 2 ^ 60, time := 0 }]
    buffer_log := [0]
    stats :=
      { buffer_space_left := 0, time := -(2 ^ 60), queuing_delay := 0, packets_lost := 0,
        packets_in := 1, packets_out := 1 }
    draining := true
    admitted := [0]
    departed := [0] }

/-- Capacity 1, bandwidth 80, records `(0, 1)` and `(1/16, 1)`, inside the drain loop
of packet 0: the clock is 1/10, the buffer is full and the Arrival of packet 1 is next. -/
def rounded_drain : State :=
  { events := [{ category := ARRIVAL, id := 1, size := 1, time := 1 / 16 }]
    buffer := [{ category := ARRIVAL, id := 0, size := 1, time := 0 }]
    buffer_log := [0]
    stats :=
      { buffer_space_left := 0, time := 1 / 10, queuing_delay := 0, packets_lost := 0,
        packets_in := 1, packets_out := 1 }
    draining := true
    admitted := [0]
    departed := [0] }

/-- The fields of an event other than its size. -/
def event_key (e : packet_event) : Int × Int × ℚ :=
  (e.category, e.id, e.time)

/-! ## Elementary facts -/

theorem new_event_DROPPED (i : Int) (t : ℚ) (sz : Int) :
    new_event i t sz DROPPED = some { category := DROPPED, id := i, size := sz, time := t } := by
  simp [new_event]

theorem new_event_DEPARTURE (i : Int) (t : ℚ) (sz : Int) :
    new_event i t sz DEPARTURE =
      some { category := DEPARTURE, id := i, size := sz, time := t } := by
  simp [new_event]

theorem wrap_long_of_fits {x : Int} (h1 : -2 ^ 63 ≤ x) (h2 : x < 2 ^ 63) :
    wrap_long x = x := by
  unfold wrap_long
  omega

theorem to_double_zero : to_double 0 = 0 := by
  simp [to_double]

theorem schedule_time_ge (s : State) (f : packet_event) : s.stats.time ≤ schedule_time s f := by
  unfold schedule_time
  split
  · exact le_refl _
  · split
    · rename_i h; exact le_of_lt h.1
    · exact le_refl _

/-- Inversion of the scheduling block: it either only (possibly) moves the clock, or
also creates the Departure of the buffer head. -/
theorem schedule_cases {s s' : State} (h : schedule s = some s') :
    (s.buffer = [] ∧ s' = s) ∨
    ∃ f rest, s.buffer = f :: rest ∧
      ((¬ (schedule_time s f ≥ f.time ∧ f.id ∉ s.buffer_log) ∧
          s' = { s with stats := { s.stats with time := schedule_time s f } }) ∨
       (schedule_time s f ≥ f.time ∧ f.id ∉ s.buffer_log ∧
          s' = { s with
                 stats := { s.stats with time := schedule_time s f }
                 buffer_log := f.id :: s.buffer_log
                 events := events_insert
                   { category := DEPARTURE, id := f.id, size := f.size,
                     time := to_double (schedule_time s f) } s.events })) := by
  unfold schedule at h
  split at h
  · rename_i hb
    left; exact ⟨hb, by simpa using h.symm⟩
  · rename_i f rest hb
    right
    refine ⟨f, rest, hb, ?_⟩
    change (if schedule_time s f ≥ f.time ∧ f.id ∉ s.buffer_log then _ else _) = _ at h
    split at h
    · rename_i hc
      right
      rw [new_event_DEPARTURE] at h
      simp only [Option.map_some', Option.some.injEq] at h
      exact ⟨hc.1, hc.2, h.symm⟩
    · rename_i hc
      left
      simp only [Option.some.injEq] at h
      exact ⟨hc, h.symm⟩

theorem leave_drain_cases (bw : Int) {s s' : State} (hd : s.draining = true)
    (hstop : s.events = [] ∨
        ∃ e rest, s.events = e :: rest ∧ (e.category = DEPARTURE ∨ e.time > s.stats.time))
    (h : leave_drain s = some s') :
    ∃ mid, Micro bw s mid ∧ mid.draining = false ∧ schedule mid = some s' := by
  unfold leave_drain remove_buffer_event at h
  split at h
  · simp at h
  · rename_i head brest hb
    simp only [Option.some_bind] at h
    exact ⟨_, Micro.leave head brest hstop hd hb, rfl, h⟩

/-- Inversion of a step: an elementary change, followed by the scheduling block
exactly when control is back in the outer loop. -/
theorem step_cases {bw : Int} {s s' : State} (h : step bw s = some s') :
    ∃ mid, Micro bw s mid ∧
      ((mid.draining = true ∧ s' = mid) ∨ (mid.draining = false ∧ schedule mid = some s')) := by
  unfold step at h
  split at h
  · -- drain loop
    rename_i hd
    unfold drain_step at h
    split at h
    · rename_i hev
      obtain ⟨mid, hm, h1, h2⟩ := leave_drain_cases bw hd (Or.inl hev) h
      exact ⟨mid, hm, Or.inr ⟨h1, h2⟩⟩
    · rename_i e rest hev
      split at h
      · rename_i hc
        obtain ⟨mid, hm, h1, h2⟩ :=
          leave_drain_cases bw hd (Or.inr ⟨e, rest, hev, hc⟩) h
        exact ⟨mid, hm, Or.inr ⟨h1, h2⟩⟩
      · rename_i hc
        have hc1 : e.category ≠ DEPARTURE := fun hx => hc (Or.inl hx)
        have hc2 : e.time ≤ s.stats.time := not_lt.mp (fun hx => hc (Or.inr hx))
        split at h
        · rename_i hdr
          simp only [Option.some.injEq] at h
          exact ⟨_, Micro.lose e rest hev hdr (fun _ => hc2), Or.inl ⟨hd, h.symm⟩⟩
        · rename_i hdr
          have hm : s.draining = false → e.category = ARRIVAL := by
            intro hx; rw [hd] at hx; cases hx
          dsimp only at h
          split at h
          · rename_i hfull
            rw [new_event_DROPPED] at h
            simp only [Option.map_some', Option.some.injEq] at h
            exact ⟨_, Micro.drop_tail e rest hev ⟨hc1, hdr⟩ hm (fun _ => hc2) hfull,
              Or.inl ⟨hd, h.symm⟩⟩
          · rename_i hroom
            simp only [Option.some.injEq, add_buffer_event] at h
            exact ⟨_, Micro.enqueue e rest hev ⟨hc1, hdr⟩ hm (fun _ => hc2) (not_le.mp hroom),
              Or.inl ⟨hd, h.symm⟩⟩
  · rename_i hd
    have hd : s.draining = false := by simpa using hd
    have hnd : s.draining = true → ∀ e : packet_event, e.time ≤ s.stats.time := by
      intro hx; rw [hd] at hx; cases hx
    unfold main_step at h
    split at h
    · simp at h
    · rename_i e rest hev
      split at h
      · rename_i hc
        have hcat : e.category ≠ DEPARTURE ∧ e.category ≠ DROPPED := by
          rw [hc]; decide
        dsimp only at h
        split at h
        · rename_i hfull
          rw [new_event_DROPPED] at h
          simp only [Option.some_bind] at h
          exact ⟨_, Micro.drop_tail e rest hev hcat (fun _ => hc) (fun hx => hnd hx e) hfull,
            Or.inr ⟨hd, h⟩⟩
        · rename_i hroom
          simp only [add_buffer_event] at h
          exact ⟨_, Micro.enqueue e rest hev hcat (fun _ => hc) (fun hx => hnd hx e)
            (not_le.mp hroom), Or.inr ⟨hd, h⟩⟩
      · rename_i hc
        split at h
        · rename_i hdr
          exact ⟨_, Micro.lose e rest hev hdr (fun hx => hnd hx e), Or.inr ⟨hd, h⟩⟩
        · rename_i hdr
          split at h
          · rename_i hdep
            split at h
            · simp at h
            · rename_i head brest hb
              simp only [Option.some.injEq] at h
              exact ⟨_, Micro.depart e rest head brest hev hdep hd hb, Or.inl ⟨rfl, h.symm⟩⟩
          · rename_i hdep
            exact ⟨_, Micro.skip e rest hev ⟨hc, hdr, hdep⟩ hd, Or.inr ⟨hd, h⟩⟩

/-! ## The pending-event list -/

theorem events_insert_perm (e : packet_event) (l : List packet_event) :
    (events_insert e l).Perm (e :: l) := by
  induction l with
  | nil => exact List.Perm.refl _
  | cons x xs ih =>
    unfold events_insert
    split
    · exact List.Perm.refl _
    · exact (List.Perm.cons x ih).trans (List.Perm.swap e x xs)

theorem events_insert_length (e : packet_event) (l : List packet_event) :
    (events_insert e l).length = l.length + 1 := by
  simpa using (events_insert_perm e l).length_eq

theorem mem_events_insert {e x : packet_event} {l : List packet_event} :
    x ∈ events_insert e l ↔ x = e ∨ x ∈ l := by
  rw [(events_insert_perm e l).mem_iff, List.mem_cons]

theorem events_insert_ne_nil (e : packet_event) (l : List packet_event) :
    events_insert e l ≠ [] := by
  intro h
  have := events_insert_length e l
  rw [h] at this
  simp at this

theorem countP_events_insert (p : packet_event → Bool) (e : packet_event)
    (l : List packet_event) :
    (events_insert e l).countP p = l.countP p + (if p e then 1 else 0) := by
  rw [(events_insert_perm e l).countP_eq, List.countP_cons]

theorem filter_events_insert_of_neg (p : packet_event → Bool) (e : packet_event)
    (l : List packet_event) (hp : p e = false) :
    (events_insert e l).filter p = l.filter p := by
  induction l with
  | nil => simp [events_insert, hp]
  | cons x xs ih =>
    unfold events_insert
    split
    · simp [hp]
    · simp only [List.filter_cons, ih]

theorem filter_events_insert_of_pos (p : packet_event → Bool) (e : packet_event)
    (l : List packet_event) (hp : p e = true) (hl : l.filter p = []) :
    (events_insert e l).filter p = [e] := by
  have h := (events_insert_perm e l).filter p
  rw [List.filter_cons, if_pos hp, hl] at h
  exact List.perm_singleton.mp h

/-! ## Induction over reachable states -/

/-- A property that holds initially and is kept by every elementary change and by
the scheduling block holds in every reachable state. -/
theorem Reachable.invariant {cap bw : Int} {trace : List (ℚ × Int)} (P : State → Prop)
    (h0 : P (init cap trace))
    (hmicro : ∀ s mid, P s → Micro bw s mid → P mid)
    (hsched : ∀ s s', P s → s.draining = false → schedule s = some s' → P s')
    {s : State} (hr : Reachable cap bw trace s) : P s := by
  induction hr with
  | start => exact h0
  | next _ hstep ih =>
    obtain ⟨mid, hm, hcase⟩ := step_cases hstep
    rcases hcase with ⟨_, rfl⟩ | ⟨hd, hs⟩
    · exact hmicro _ _ ih hm
    · exact hsched _ _ (hmicro _ _ ih hm) hd hs

/-! ## Buffer occupancy -/

theorem occupancy_micro {cap bw : Int} {s mid : State} (h : occupancy_ok cap s)
    (hm : Micro bw s mid) : occupancy_ok cap mid := by
  unfold occupancy_ok at *
  cases hm with
  | drop_tail e rest hev hcat hmain hdrain hfull => simpa using h
  | enqueue e rest hev hcat hmain hdrain hroom =>
    simp only [List.length_append, List.length_singleton, Nat.cast_add, Nat.cast_one]
    omega
  | lose e rest hev hcat hdrain => simpa using h
  | depart e rest head brest hev hcat hmain hbuf => simpa using h
  | skip e rest hev hcat hmain => simpa using h
  | leave head brest hstop hdrain hbuf =>
    rw [hbuf] at h
    simp only [List.length_cons, Nat.cast_add, Nat.cast_one] at h
    simp only
    omega

theorem occupancy_schedule {cap : Int} {s s' : State} (h : occupancy_ok cap s)
    (hs : schedule s = some s') : occupancy_ok cap s' := by
  unfold occupancy_ok at *
  rcases schedule_cases hs with ⟨_, rfl⟩ | ⟨f, rest, hb, ⟨_, rfl⟩ | ⟨_, _, rfl⟩⟩
  · exact h
  · simpa using h
  · simpa using h

/-! ## Packet conservation -/

theorem conservation_micro {bw : Int} {s mid : State} (h : conservation_ok s)
    (hm : Micro bw s mid) : conservation_ok mid := by
  unfold conservation_ok pending_dropped at *
  cases hm with
  | drop_tail e rest hev hcat hmain hdrain hfull =>
    rw [hev, List.countP_cons] at h
    simp only [countP_events_insert]
    simp [hcat.2] at h ⊢
    omega
  | enqueue e rest hev hcat hmain hdrain hroom =>
    rw [hev, List.countP_cons] at h
    simp [hcat.2] at h ⊢
    omega
  | lose e rest hev hcat hdrain =>
    rw [hev, List.countP_cons] at h
    simp [hcat] at h ⊢
    omega
  | depart e rest head brest hev hcat hmain hbuf =>
    rw [hev, List.countP_cons, hmain] at h
    simp [hcat] at h ⊢
    omega
  | skip e rest hev hcat hmain =>
    rw [hev, List.countP_cons] at h
    simp [hcat.2.1] at h ⊢
    omega
  | leave head brest hstop hdrain hbuf =>
    rw [hbuf, hdrain] at h
    simp at h ⊢
    omega

theorem conservation_schedule {s s' : State} (h : conservation_ok s)
    (hs : schedule s = some s') : conservation_ok s' := by
  unfold conservation_ok pending_dropped at *
  rcases schedule_cases hs with ⟨_, rfl⟩ | ⟨f, rest, hb, ⟨_, rfl⟩ | ⟨_, _, rfl⟩⟩
  · exact h
  · simpa using h
  · simp only [countP_events_insert]
    simpa using h

/-! ## Pending Departure events -/

theorem departure_micro {bw : Int} {s mid : State} (h : departure_ok s)
    (hm : Micro bw s mid) : departure_ok mid := by
  unfold departure_ok pending_departures at *
  obtain ⟨h1, h2⟩ := h
  cases hm with
  | drop_tail e rest hev hcat hmain hdrain hfull =>
    rw [hev, List.filter_cons] at h1
    simp only [hcat.1, decide_False, Bool.false_eq_true, if_false] at h1
    refine ⟨?_, h2⟩
    simp only
    rw [filter_events_insert_of_neg _ _ _ (by simp)]
    exact h1
  | enqueue e rest hev hcat hmain hdrain hroom =>
    rw [hev, List.filter_cons] at h1
    simp only [hcat.1, decide_False, Bool.false_eq_true, if_false] at h1
    refine ⟨?_, fun _ => by simp⟩
    rcases h1 with h1 | ⟨hd, d, hh, r, hf, hb, hrest⟩
    · exact Or.inl h1
    · exact Or.inr ⟨hd, d, hh, r ++ [e], hf, by simp [hb], hrest⟩
  | lose e rest hev hcat hdrain =>
    rw [hev, List.filter_cons] at h1
    simp only [hcat, show ¬ (DROPPED = DEPARTURE) by decide, decide_False,
      Bool.false_eq_true, if_false] at h1
    exact ⟨h1, h2⟩
  | depart e rest head brest hev hcat hmain hbuf =>
    rw [hev, List.filter_cons] at h1
    simp only [hcat, decide_True, if_true] at h1
    refine ⟨Or.inl ?_, fun _ => by simp [hbuf]⟩
    rcases h1 with h1 | ⟨_, d, hh, r, hf, _⟩
    · cases h1
    · simp only
      exact (List.cons.inj hf).2
  | skip e rest hev hcat hmain =>
    rw [hev, List.filter_cons] at h1
    simp only [hcat.2.2, decide_False, Bool.false_eq_true, if_false] at h1
    exact ⟨h1, h2⟩
  | leave head brest hstop hdrain hbuf =>
    refine ⟨Or.inl ?_, fun hx => by cases hx⟩
    rcases h1 with h1 | ⟨hd, _⟩
    · exact h1
    · rw [hdrain] at hd; cases hd

theorem departure_schedule {s s' : State} (h : departure_ok s) (hd : s.draining = false)
    (hs : schedule s = some s') : departure_ok s' := by
  unfold departure_ok pending_departures at *
  obtain ⟨h1, h2⟩ := h
  rcases schedule_cases hs with ⟨_, rfl⟩ | ⟨f, rest, hb, ⟨_, rfl⟩ | ⟨_, hlog, rfl⟩⟩
  · exact ⟨h1, h2⟩
  · exact ⟨h1, h2⟩
  · refine ⟨Or.inr ⟨hd, ?_⟩, h2⟩
    have hnil : s.events.filter (fun e => decide (e.category = DEPARTURE)) = [] := by
      rcases h1 with h1 | ⟨_, d, hh, r, _, hb', _, _, hmem⟩
      · exact h1
      · rw [hb] at hb'
        have : f = hh := (List.cons.inj hb').1
        subst this
        exact absurd hmem hlog
    refine ⟨_, f, rest, filter_events_insert_of_pos _ _ _ (by simp) hnil, hb, rfl, rfl, ?_⟩
    simp

theorem init_events_category (trace : List (ℚ × Int)) (n : Int) (ev : List packet_event)
    (h : ∀ e ∈ ev, e.category = ARRIVAL) :
    ∀ e ∈ read_trace trace n ev, e.category = ARRIVAL := by
  induction trace generalizing n ev with
  | nil => exact h
  | cons r rest ih =>
    obtain ⟨t, sz⟩ := r
    unfold read_trace
    apply ih
    intro e he
    rcases mem_events_insert.mp he with rfl | he
    · rfl
    · exact h e he

theorem departure_init (cap : Int) (trace : List (ℚ × Int)) :
    departure_ok (init cap trace) := by
  refine ⟨Or.inl ?_, fun hx => by cases hx⟩
  unfold pending_departures
  rw [List.filter_eq_nil_iff]
  intro e he
  have := init_events_category trace 0 [] (by simp) e he
  simp [this]

theorem Reachable.departure_ok {cap bw : Int} {trace : List (ℚ × Int)} {s : State}
    (hr : Reachable cap bw trace s) : Router.departure_ok s :=
  hr.invariant Router.departure_ok (departure_init cap trace)
    (fun _ _ h hm => departure_micro h hm)
    (fun _ _ h hd hs => departure_schedule h hd hs)

/-! ## Progress -/

theorem schedule_some (s : State) : ∃ s', schedule s = some s' := by
  unfold schedule
  split
  · exact ⟨_, rfl⟩
  · dsimp only
    split
    · rw [new_event_DEPARTURE]; exact ⟨_, rfl⟩
    · exact ⟨_, rfl⟩

/-- A state that satisfies the Departure invariant and is not final has a successor:
the engine never reads or erases the head of an empty buffer. -/
theorem step_some (bw : Int) {s : State} (h : departure_ok s) (hh : halted s = false) :
    ∃ s', step bw s = some s' := by
  obtain ⟨h1, h2⟩ := h
  unfold step
  split
  · rename_i hd
    obtain ⟨head, brest, hb⟩ := List.exists_cons_of_ne_nil (h2 hd)
    have hleave : ∃ s', leave_drain s = some s' := by
      unfold leave_drain remove_buffer_event
      rw [hb]
      simp only [Option.some_bind]
      exact schedule_some _
    unfold drain_step
    split
    · exact hleave
    · split
      · exact hleave
      · split
        · exact ⟨_, rfl⟩
        · dsimp only
          split
          · rw [new_event_DROPPED]; exact ⟨_, rfl⟩
          · exact ⟨_, rfl⟩
  · rename_i hd
    have hd : s.draining = false := by simpa using hd
    unfold main_step
    split
    · rename_i hev
      simp [halted, hd, hev] at hh
    · rename_i e rest hev
      split
      · dsimp only
        split
        · rw [new_event_DROPPED]
          simp only [Option.some_bind]
          exact schedule_some _
        · exact schedule_some _
      · split
        · exact schedule_some _
        · split
          · rename_i hdep
            split
            · rename_i hb
              exfalso
              unfold pending_departures at h1
              rw [hev, List.filter_cons] at h1
              simp only [hdep, decide_True, if_true] at h1
              rcases h1 with h1 | ⟨_, d, hh', r, _, hb', _⟩
              · cases h1
              · rw [hb] at hb'; cases hb'
            · exact ⟨_, rfl⟩
          · exact schedule_some _

/-! ## Termination -/

theorem sum_weight_events_insert (e : packet_event) (l : List packet_event) :
    ((events_insert e l).map event_weight).sum = event_weight e + (l.map event_weight).sum := by
  rw [((events_insert_perm e l).map event_weight).sum_eq, List.map_cons, List.sum_cons]

theorem buffer_weight_le (i : Int) (log : List Int) (p : packet_event) :
    buffer_weight (i :: log) p ≤ buffer_weight log p := by
  unfold buffer_weight
  by_cases h : p.id ∈ log
  · simp [h]
  · simp only [h, if_false]
    split <;> omega

theorem sum_buffer_weight_le (i : Int) (log : List Int) (l : List packet_event) :
    (l.map (buffer_weight (i :: log))).sum ≤ (l.map (buffer_weight log)).sum := by
  induction l with
  | nil => simp
  | cons x xs ih =>
    simp only [List.map_cons, List.sum_cons]
    exact Nat.add_le_add (buffer_weight_le i log x) ih

theorem buffer_weight_le_two (log : List Int) (p : packet_event) :
    buffer_weight log p ≤ 2 := by
  unfold buffer_weight; split <;> omega

theorem remaining_micro {bw : Int} {s mid : State} (hm : Micro bw s mid) :
    remaining mid < remaining s := by
  unfold remaining
  cases hm with
  | drop_tail e rest hev hcat hmain hdrain hfull =>
    rw [hev]
    simp only [sum_weight_events_insert, List.map_cons, List.sum_cons]
    simp [event_weight, hcat.1, hcat.2]
  | enqueue e rest hev hcat hmain hdrain hroom =>
    rw [hev]
    have := buffer_weight_le_two s.buffer_log e
    simp only [List.map_cons, List.sum_cons, List.map_append, List.sum_append, List.map_nil,
      List.sum_nil, add_zero]
    simp only [event_weight, hcat.1, hcat.2, if_false]
    omega
  | lose e rest hev hcat hdrain =>
    rw [hev]
    simp [event_weight, hcat]
  | depart e rest head brest hev hcat hmain hbuf =>
    rw [hev, hmain]
    simp only [List.map_cons, List.sum_cons]
    simp [event_weight, hcat]
    omega
  | skip e rest hev hcat hmain =>
    rw [hev]
    simp [event_weight, hcat.2.1, hcat.2.2]
  | leave head brest hstop hdrain hbuf =>
    rw [hbuf, hdrain]
    simp only [List.map_cons, List.sum_cons]
    simp
    omega

theorem remaining_schedule {s s' : State} (hs : schedule s = some s') :
    remaining s' ≤ remaining s := by
  unfold remaining
  rcases schedule_cases hs with ⟨_, rfl⟩ | ⟨f, rest, hb, ⟨_, rfl⟩ | ⟨_, hlog, rfl⟩⟩
  · exact le_refl _
  · exact le_refl _
  · simp only [sum_weight_events_insert]
    rw [hb]
    simp only [List.map_cons, List.sum_cons]
    have h1 := sum_buffer_weight_le f.id s.buffer_log rest
    have h2 : buffer_weight (f.id :: s.buffer_log) f = 0 := by simp [buffer_weight]
    have h3 : buffer_weight s.buffer_log f = 2 := by simp [buffer_weight, hlog]
    have h4 : event_weight
        { category := DEPARTURE, id := f.id, size := f.size,
          time := to_double (schedule_time s f) } = 2 := by
      simp [event_weight]
    omega

theorem remaining_step {bw : Int} {s s' : State} (h : step bw s = some s') :
    remaining s' < remaining s := by
  obtain ⟨mid, hm, hcase⟩ := step_cases h
  rcases hcase with ⟨_, rfl⟩ | ⟨_, hs⟩
  · exact remaining_micro hm
  · exact lt_of_le_of_lt (remaining_schedule hs) (remaining_micro hm)

theorem read_trace_length (trace : List (ℚ × Int)) (n : Int) (ev : List packet_event) :
    (read_trace trace n ev).length = ev.length + trace.length := by
  induction trace generalizing n ev with
  | nil => simp [read_trace]
  | cons r rest ih =>
    obtain ⟨t, sz⟩ := r
    unfold read_trace
    rw [ih, events_insert_length, List.length_cons]
    omega

theorem sum_weight_arrivals (l : List packet_event) (h : ∀ e ∈ l, e.category = ARRIVAL) :
    (l.map event_weight).sum = 3 * l.length := by
  induction l with
  | nil => simp
  | cons x xs ih =>
    have hx := h x (List.mem_cons_self _ _)
    rw [List.map_cons, List.sum_cons, ih (fun e he => h e (List.mem_cons_of_mem _ he)),
      List.length_cons]
    simp [event_weight, hx]
    omega

theorem remaining_init (cap : Int) (trace : List (ℚ × Int)) :
    remaining (init cap trace) = 3 * trace.length := by
  unfold remaining init
  simp only [List.map_nil, List.sum_nil, add_zero]
  rw [sum_weight_arrivals _ (init_events_category trace 0 [] (by simp)), read_trace_length]
  simp

/-- From a reachable state the loop ends within `remaining` steps, in a reachable
state. -/
theorem run_terminates {cap bw : Int} {trace : List (ℚ × Int)} (fuel : Nat) (s : State)
    (hr : Reachable cap bw trace s) (hf : remaining s ≤ fuel) :
    ∃ s', run bw fuel s = some s' ∧ halted s' = true ∧ Reachable cap bw trace s' := by
  induction fuel generalizing s with
  | zero =>
    unfold run
    by_cases hh : halted s = true
    · exact ⟨s, by simp [hh], hh, hr⟩
    · obtain ⟨s', hs'⟩ := step_some bw hr.departure_ok (by simpa using hh)
      have := remaining_step hs'
      omega
  | succ n ih =>
    unfold run
    by_cases hh : halted s = true
    · exact ⟨s, by simp [hh], hh, hr⟩
    · obtain ⟨s', hs'⟩ := step_some bw hr.departure_ok (by simpa using hh)
      have hlt := remaining_step hs'
      obtain ⟨s'', h1, h2, h3⟩ := ih s' (Reachable.next hr hs') (by omega)
      refine ⟨s'', ?_, h2, h3⟩
      simp only [hh, if_false, hs', Option.some_bind]
      exact h1

/-- The run of `main` always ends: `simulate` returns a final, reachable state. -/
theorem simulate_terminates (cap bw : Int) (trace : List (ℚ × Int)) :
    ∃ s, simulate cap bw trace = some s ∧ halted s = true ∧ Reachable cap bw trace s :=
  run_terminates _ _ Reachable.start (le_of_eq (remaining_init cap trace))

theorem run_reachable {cap bw : Int} {trace : List (ℚ × Int)} (fuel : Nat) (s s' : State)
    (hr : Reachable cap bw trace s) (h : run bw fuel s = some s') :
    halted s' = true ∧ Reachable cap bw trace s' := by
  induction fuel generalizing s with
  | zero =>
    unfold run at h
    split at h
    · rename_i hh; cases h; exact ⟨hh, hr⟩
    · cases h
  | succ n ih =>
    unfold run at h
    split at h
    · rename_i hh; cases h; exact ⟨hh, hr⟩
    · cases hs : step bw s with
      | none => rw [hs] at h; cases h
      | some s1 =>
        rw [hs] at h
        exact ih s1 (Reachable.next hr hs) h

/-! ## Reachability helpers -/

theorem reachable_steps {cap bw : Int} {trace : List (ℚ × Int)} (n : Nat) {s s' : State}
    (hr : Reachable cap bw trace s) (h : steps bw n s = some s') :
    Reachable cap bw trace s' := by
  induction n generalizing s with
  | zero => unfold steps at h; cases h; exact hr
  | succ n ih =>
    unfold steps at h
    cases hs : step bw s with
    | none => rw [hs] at h; cases h
    | some s1 => rw [hs] at h; exact ih (Reachable.next hr hs) h

theorem Reachable.occupancy_ok {cap bw : Int} {trace : List (ℚ × Int)} {s : State}
    (hr : Reachable cap bw trace s) : Router.occupancy_ok cap s :=
  hr.invariant (Router.occupancy_ok cap) (by simp [Router.occupancy_ok, init])
    (fun _ _ h hm => occupancy_micro h hm)
    (fun _ _ h _ hs => occupancy_schedule h hs)

theorem Reachable.conservation_ok {cap bw : Int} {trace : List (ℚ × Int)} {s : State}
    (hr : Reachable cap bw trace s) : Router.conservation_ok s := by
  refine hr.invariant Router.conservation_ok ?_
    (fun _ _ h hm => conservation_micro h hm)
    (fun _ _ h _ hs => conservation_schedule h hs)
  have h := init_events_category trace 0 [] (by simp)
  unfold Router.conservation_ok pending_dropped
  have : (init cap trace).events.countP (fun e => decide (e.category = DROPPED)) = 0 := by
    rw [List.countP_eq_zero]
    intro e he
    have := h e he
    simp [this]
  rw [this]
  simp [init]

theorem halted_iff (s : State) : halted s = true ↔ s.draining = false ∧ s.events = [] := by
  unfold halted
  cases s.draining <;> simp

/-! ## Event order -/

theorem event_comparator_iff (a b : packet_event) :
    event_comparator a b = true ↔
      (a.time < b.time ∨ (a.time = b.time ∧ a.category < b.category)) := by
  unfold event_comparator
  split
  · rename_i h
    simp [h]
  · rename_i h
    simp only [decide_eq_true_eq]
    constructor
    · exact fun hlt => Or.inl hlt
    · rintro (hlt | ⟨he, _⟩)
      · exact hlt
      · exact absurd he h

theorem event_comparator_asymm {a b : packet_event} (h : event_comparator a b = true) :
    event_comparator b a = false := by
  rw [Bool.eq_false_iff]
  intro h'
  rw [event_comparator_iff] at h h'
  rcases h with h | ⟨h1, h2⟩ <;> rcases h' with h' | ⟨h1', h2'⟩
  · exact absurd h (not_lt.mpr (le_of_lt h'))
  · rw [h1'] at h; exact lt_irrefl _ h
  · rw [h1] at h'; exact lt_irrefl _ h'
  · omega

theorem event_comparator_trans {a b c : packet_event} (h1 : event_comparator a b = true)
    (h2 : event_comparator b c = true) : event_comparator a c = true := by
  rw [event_comparator_iff] at *
  rcases h1 with h1 | ⟨h1, h1'⟩ <;> rcases h2 with h2 | ⟨h2, h2'⟩
  · exact Or.inl (lt_trans h1 h2)
  · exact Or.inl (h2 ▸ h1)
  · exact Or.inl (h1 ▸ h2)
  · exact Or.inr ⟨h1.trans h2, by omega⟩

theorem events_insert_sorted (e : packet_event) (l : List packet_event)
    (h : l.Pairwise fun a b => event_comparator b a = false) :
    (events_insert e l).Pairwise fun a b => event_comparator b a = false := by
  induction l with
  | nil => simp [events_insert]
  | cons x xs ih =>
    rw [List.pairwise_cons] at h
    unfold events_insert
    split
    · rename_i hc
      rw [List.pairwise_cons]
      refine ⟨?_, List.pairwise_cons.mpr h⟩
      intro y hy
      rcases List.mem_cons.mp hy with rfl | hy
      · exact event_comparator_asymm hc
      · rw [Bool.eq_false_iff]
        intro hy'
        have := event_comparator_trans hy' hc
        rw [h.1 y hy] at this
        cases this
    · rename_i hc
      rw [List.pairwise_cons]
      refine ⟨?_, ih h.2⟩
      intro y hy
      rcases mem_events_insert.mp hy with rfl | hy
      · simpa using hc
      · exact h.1 y hy

theorem read_trace_sorted (trace : List (ℚ × Int)) (n : Int) (ev : List packet_event)
    (h : ev.Pairwise fun a b => event_comparator b a = false) :
    (read_trace trace n ev).Pairwise fun a b => event_comparator b a = false := by
  induction trace generalizing n ev with
  | nil => exact h
  | cons r rest ih =>
    obtain ⟨t, sz⟩ := r
    unfold read_trace
    exact ih _ _ (events_insert_sorted _ _ h)

theorem sorted_micro {bw : Int} {s mid : State} (h : events_sorted s)
    (hm : Micro bw s mid) : events_sorted mid := by
  unfold events_sorted at *
  cases hm with
  | drop_tail e rest hev hcat hmain hdrain hfull =>
    rw [hev] at h
    exact events_insert_sorted _ _ (List.pairwise_cons.mp h).2
  | enqueue e rest hev hcat hmain hdrain hroom =>
    rw [hev] at h; exact (List.pairwise_cons.mp h).2
  | lose e rest hev hcat hdrain =>
    rw [hev] at h; exact (List.pairwise_cons.mp h).2
  | depart e rest head brest hev hcat hmain hbuf =>
    rw [hev] at h; exact (List.pairwise_cons.mp h).2
  | skip e rest hev hcat hmain =>
    rw [hev] at h; exact (List.pairwise_cons.mp h).2
  | leave head brest hstop hdrain hbuf => exact h

theorem sorted_schedule {s s' : State} (h : events_sorted s)
    (hs : schedule s = some s') : events_sorted s' := by
  unfold events_sorted at *
  rcases schedule_cases hs with ⟨_, rfl⟩ | ⟨f, rest, hb, ⟨_, rfl⟩ | ⟨_, _, rfl⟩⟩
  · exact h
  · exact h
  · exact events_insert_sorted _ _ h

theorem Reachable.events_sorted {cap bw : Int} {trace : List (ℚ × Int)} {s : State}
    (hr : Reachable cap bw trace s) : Router.events_sorted s :=
  hr.invariant Router.events_sorted (read_trace_sorted trace 0 [] List.Pairwise.nil)
    (fun _ _ h hm => sorted_micro h hm)
    (fun _ _ h _ hs => sorted_schedule h hs)

/-! ## Positive sizes -/

theorem sizes_micro {bw : Int} {s mid : State} (h : sizes_ok s)
    (hm : Micro bw s mid) : sizes_ok mid := by
  unfold sizes_ok at *
  obtain ⟨h1, h2⟩ := h
  cases hm with
  | drop_tail e rest hev hcat hmain hdrain hfull =>
    rw [hev] at h1
    refine ⟨?_, h2⟩
    intro x hx
    rcases mem_events_insert.mp hx with rfl | hx
    · exact h1 e (List.mem_cons_self _ _)
    · exact h1 x (List.mem_cons_of_mem _ hx)
  | enqueue e rest hev hcat hmain hdrain hroom =>
    rw [hev] at h1
    refine ⟨fun x hx => h1 x (List.mem_cons_of_mem _ hx), ?_⟩
    intro p hp
    rcases List.mem_append.mp hp with hp | hp
    · exact h2 p hp
    · rw [List.mem_singleton] at hp
      rw [hp]; exact h1 e (List.mem_cons_self _ _)
  | lose e rest hev hcat hdrain =>
    rw [hev] at h1
    exact ⟨fun x hx => h1 x (List.mem_cons_of_mem _ hx), h2⟩
  | depart e rest head brest hev hcat hmain hbuf =>
    rw [hev] at h1
    exact ⟨fun x hx => h1 x (List.mem_cons_of_mem _ hx), h2⟩
  | skip e rest hev hcat hmain =>
    rw [hev] at h1
    exact ⟨fun x hx => h1 x (List.mem_cons_of_mem _ hx), h2⟩
  | leave head brest hstop hdrain hbuf =>
    rw [hbuf] at h2
    exact ⟨h1, fun p hp => h2 p (List.mem_cons_of_mem _ hp)⟩

theorem sizes_schedule {s s' : State} (h : sizes_ok s)
    (hs : schedule s = some s') : sizes_ok s' := by
  unfold sizes_ok at *
  obtain ⟨h1, h2⟩ := h
  rcases schedule_cases hs with ⟨_, rfl⟩ | ⟨f, rest, hb, ⟨_, rfl⟩ | ⟨_, _, rfl⟩⟩
  · exact ⟨h1, h2⟩
  · exact ⟨h1, h2⟩
  · refine ⟨?_, h2⟩
    intro x hx
    rcases mem_events_insert.mp hx with rfl | hx
    · exact h2 f (by rw [hb]; exact List.mem_cons_self _ _)
    · exact h1 x hx

theorem read_trace_sizes (trace : List (ℚ × Int)) (n : Int) (ev : List packet_event)
    (ht : ∀ r ∈ trace, 0 < r.2 ∧ r.2 < 2 ^ 60)
    (h : ∀ e ∈ ev, 0 < e.size ∧ e.size < 2 ^ 60) :
    ∀ e ∈ read_trace trace n ev, 0 < e.size ∧ e.size < 2 ^ 60 := by
  induction trace generalizing n ev with
  | nil => exact h
  | cons r rest ih =>
    obtain ⟨t, sz⟩ := r
    unfold read_trace
    apply ih _ _ (fun r hr => ht r (List.mem_cons_of_mem _ hr))
    intro e he
    rcases mem_events_insert.mp he with rfl | he
    · exact ht (t, sz) (List.mem_cons_self _ _)
    · exact h e he

theorem Reachable.sizes_ok {cap bw : Int} {trace : List (ℚ × Int)} {s : State}
    (ht : ∀ r ∈ trace, 0 < r.2 ∧ r.2 < 2 ^ 60) (hr : Reachable cap bw trace s) :
    Router.sizes_ok s :=
  hr.invariant Router.sizes_ok
    ⟨read_trace_sizes trace 0 [] ht (by simp), by simp [init]⟩
    (fun _ _ h hm => sizes_micro h hm)
    (fun _ _ h _ hs => sizes_schedule h hs)

theorem TRANSMISSION_DELAY_pos {sz bw : Int} (hs : 0 < sz ∧ sz < 2 ^ 60) (hb : 0 < bw) :
    0 < TRANSMISSION_DELAY sz bw := by
  unfold TRANSMISSION_DELAY
  rw [wrap_long_of_fits (by omega) (by omega)]
  apply div_pos
  · exact_mod_cast (by omega : (0 : Int) < sz * 8)
  · exact_mod_cast hb

theorem clock_micro {bw : Int} {s mid : State} (hbw : 0 < bw) (h : sizes_ok s)
    (hm : Micro bw s mid) : s.stats.time ≤ mid.stats.time := by
  cases hm with
  | drop_tail e rest hev hcat hmain hdrain hfull => exact le_refl _
  | enqueue e rest hev hcat hmain hdrain hroom => exact le_refl _
  | lose e rest hev hcat hdrain => exact le_refl _
  | depart e rest head brest hev hcat hmain hbuf =>
    have hpos := TRANSMISSION_DELAY_pos (h.1 e (by rw [hev]; exact List.mem_cons_self _ _)) hbw
    simp only
    linarith
  | skip e rest hev hcat hmain => exact le_refl _
  | leave head brest hstop hdrain hbuf => exact le_refl _

theorem clock_schedule {s s' : State} (hs : schedule s = some s') :
    s.stats.time ≤ s'.stats.time := by
  rcases schedule_cases hs with ⟨_, rfl⟩ | ⟨f, rest, hb, ⟨_, rfl⟩ | ⟨_, _, rfl⟩⟩
  · exact le_refl _
  · exact schedule_time_ge s f
  · exact schedule_time_ge s f

/-! ## Service order -/

theorem pending_head_departure {s : State} {e : packet_event} {rest : List packet_event}
    (hd : departure_ok s) (hev : s.events = e :: rest) (hcat : e.category = DEPARTURE) :
    ∃ h brest, s.buffer = h :: brest ∧ e.id = h.id ∧ e.size = h.size ∧
      h.id ∈ s.buffer_log := by
  obtain ⟨h1, _⟩ := hd
  unfold pending_departures at h1
  rw [hev, List.filter_cons] at h1
  simp only [hcat, decide_True, if_true] at h1
  rcases h1 with h1 | ⟨_, d, h, r, hf, hb, hid, hsz, hlog⟩
  · cases h1
  · have : e = d := (List.cons.inj hf).1
    subst this
    exact ⟨h, r, hb, hid, hsz, hlog⟩

theorem fifo_micro {bw : Int} {s mid : State} (hd : departure_ok s) (h : fifo_ok s)
    (hm : Micro bw s mid) : fifo_ok mid := by
  unfold fifo_ok at *
  obtain ⟨h1, h2⟩ := h
  cases hm with
  | drop_tail e rest hev hcat hmain hdrain hfull => exact ⟨h1, h2⟩
  | enqueue e rest hev hcat hmain hdrain hroom =>
    constructor
    · intro hx
      simp only [List.map_append, List.map_cons, List.map_nil]
      rw [h1 hx, List.append_assoc]
    · intro hx
      obtain ⟨hh, r, dp, hb, hdep, hadm⟩ := h2 hx
      refine ⟨hh, r ++ [e], dp, by simp [hb], hdep, ?_⟩
      simp only [List.map_append, List.map_cons, List.map_nil]
      rw [hadm, List.append_assoc]
  | lose e rest hev hcat hdrain => exact ⟨h1, h2⟩
  | depart e rest head brest hev hcat hmain hbuf =>
    obtain ⟨hh, r, hb, hid, _, _⟩ := pending_head_departure hd hev hcat
    refine ⟨fun hx => (by cases hx), fun _ => ⟨hh, r, s.departed, hb, ?_, h1 hmain⟩⟩
    simp only [hid]
  | skip e rest hev hcat hmain => exact ⟨h1, h2⟩
  | leave head brest hstop hdrain hbuf =>
    refine ⟨fun _ => ?_, fun hx => by cases hx⟩
    obtain ⟨hh, r, dp, hb, hdep, hadm⟩ := h2 hdrain
    rw [hbuf] at hb hadm
    obtain ⟨rfl, rfl⟩ := List.cons.inj hb
    simp only
    rw [hadm, hdep]
    simp

theorem fifo_schedule {s s' : State} (h : fifo_ok s)
    (hs : schedule s = some s') : fifo_ok s' := by
  unfold fifo_ok at *
  rcases schedule_cases hs with ⟨_, rfl⟩ | ⟨f, rest, hb, ⟨_, rfl⟩ | ⟨_, _, rfl⟩⟩
  · exact h
  · exact h
  · exact h

theorem Reachable.fifo_ok {cap bw : Int} {trace : List (ℚ × Int)} {s : State}
    (hr : Reachable cap bw trace s) : Router.fifo_ok s := by
  have h : Router.departure_ok s ∧ Router.fifo_ok s := by
    refine hr.invariant (fun s => Router.departure_ok s ∧ Router.fifo_ok s) ?_ ?_ ?_
    · refine ⟨departure_init cap trace, ?_⟩
      simp [Router.fifo_ok, init]
    · intro s mid h hm
      exact ⟨departure_micro h.1 hm, fifo_micro h.1 h.2 hm⟩
    · intro s s' h hd hs
      exact ⟨departure_schedule h.1 hd hs, fifo_schedule h.2 hs⟩
  exact h.2

/-! ## Arrival count -/

theorem arrivals_micro {bw : Int} {n : Nat} {s mid : State} (h : arrivals_ok n s)
    (hm : Micro bw s mid) : arrivals_ok n mid := by
  unfold arrivals_ok at *
  obtain ⟨h1, h2⟩ := h
  cases hm with
  | drop_tail e rest hev hcat hmain hdrain hfull =>
    rw [hev] at h1 h2
    have he : e.category = ARRIVAL := by
      rcases h1 e (List.mem_cons_self _ _) with h | h | h
      · exact h
      · exact absurd h hcat.1
      · exact absurd h hcat.2
    constructor
    · intro x hx
      rcases mem_events_insert.mp hx with rfl | hx
      · right; right; rfl
      · exact h1 x (List.mem_cons_of_mem _ hx)
    · simp only [countP_events_insert]
      rw [List.countP_cons] at h2
      simp [he] at h2 ⊢
      omega
  | enqueue e rest hev hcat hmain hdrain hroom =>
    rw [hev] at h1 h2
    have he : e.category = ARRIVAL := by
      rcases h1 e (List.mem_cons_self _ _) with h | h | h
      · exact h
      · exact absurd h hcat.1
      · exact absurd h hcat.2
    refine ⟨fun x hx => h1 x (List.mem_cons_of_mem _ hx), ?_⟩
    rw [List.countP_cons] at h2
    simp [he] at h2 ⊢
    omega
  | lose e rest hev hcat hdrain =>
    rw [hev] at h1 h2
    refine ⟨fun x hx => h1 x (List.mem_cons_of_mem _ hx), ?_⟩
    rw [List.countP_cons] at h2
    simp [hcat] at h2 ⊢
    omega
  | depart e rest head brest hev hcat hmain hbuf =>
    rw [hev] at h1 h2
    refine ⟨fun x hx => h1 x (List.mem_cons_of_mem _ hx), ?_⟩
    rw [List.countP_cons] at h2
    simp [hcat] at h2 ⊢
    omega
  | skip e rest hev hcat hmain =>
    rw [hev] at h1 h2
    refine ⟨fun x hx => h1 x (List.mem_cons_of_mem _ hx), ?_⟩
    rw [List.countP_cons] at h2
    simp [hcat.1] at h2 ⊢
    omega
  | leave head brest hstop hdrain hbuf => exact ⟨h1, h2⟩

theorem arrivals_schedule {n : Nat} {s s' : State} (h : arrivals_ok n s)
    (hs : schedule s = some s') : arrivals_ok n s' := by
  unfold arrivals_ok at *
  obtain ⟨h1, h2⟩ := h
  rcases schedule_cases hs with ⟨_, rfl⟩ | ⟨f, rest, hb, ⟨_, rfl⟩ | ⟨_, _, rfl⟩⟩
  · exact ⟨h1, h2⟩
  · exact ⟨h1, h2⟩
  · constructor
    · intro x hx
      rcases mem_events_insert.mp hx with rfl | hx
      · right; left; rfl
      · exact h1 x hx
    · simp only [countP_events_insert]
      simpa using h2

theorem Reachable.arrivals_ok {cap bw : Int} {trace : List (ℚ × Int)} {s : State}
    (hr : Reachable cap bw trace s) : Router.arrivals_ok trace.length s := by
  refine hr.invariant (Router.arrivals_ok trace.length) ?_
    (fun _ _ h hm => arrivals_micro h hm)
    (fun _ _ h _ hs => arrivals_schedule h hs)
  have hc := init_events_category trace 0 [] (by simp)
  refine ⟨fun e he => Or.inl (hc e he), ?_⟩
  have : (init cap trace).events.countP (fun e => decide (e.category = ARRIVAL)) =
      (init cap trace).events.length := by
    rw [List.countP_eq_length]
    intro e he
    simp [hc e he]
  rw [this]
  simp [init, read_trace_length]

/-! ## The sample run -/

theorem sample_pending_steps : steps 8 2 (init 1 sample_trace) = some sample_pending := by
  decide!

theorem sample_drain_step : step 8 sample_pending = some sample_drain := by
  decide!

theorem sample_pending_reachable : Reachable 1 8 sample_trace sample_pending :=
  reachable_steps 2 Reachable.start sample_pending_steps

theorem sample_drain_reachable : Reachable 1 8 sample_trace sample_drain :=
  Reachable.next sample_pending_reachable sample_drain_step

theorem sample_first_step : step 8 (init 1 sample_trace) = some sample_first := by
  decide!

theorem sample_trace_sizes : ∀ r ∈ sample_trace, 0 < r.2 ∧ r.2 < 2 ^ 60 := by
  decide!

theorem clock_step {bw : Int} {s s' : State} (hbw : 0 < bw) (h : sizes_ok s)
    (hs : step bw s = some s') : s.stats.time ≤ s'.stats.time := by
  obtain ⟨mid, hm, hcase⟩ := step_cases hs
  rcases hcase with ⟨_, rfl⟩ | ⟨_, hsch⟩
  · exact clock_micro hbw h hm
  · exact le_trans (clock_micro hbw h hm) (clock_schedule hsch)

theorem Reachable.clock_nonneg {cap bw : Int} {trace : List (ℚ × Int)} {s : State}
    (ht : ∀ r ∈ trace, 0 < r.2 ∧ r.2 < 2 ^ 60) (hbw : 0 < bw)
    (hr : Reachable cap bw trace s) : 0 ≤ s.stats.time := by
  induction hr with
  | start => exact le_refl _
  | next hprev hstep ih => exact le_trans ih (clock_step hbw (hprev.sizes_ok ht) hstep)

/-! ## Straight-line runs -/

theorem step_not_halted {bw : Int} {s s' : State} (h : step bw s = some s') :
    halted s = false := by
  cases hh : halted s with
  | false => rfl
  | true =>
    obtain ⟨hd, hev⟩ := (halted_iff s).mp hh
    unfold step main_step at h
    rw [hd, hev] at h
    simp at h

theorem steps_add (bw : Int) (a b : Nat) (s : State) :
    steps bw (a + b) s = (steps bw a s).bind (steps bw b) := by
  induction a generalizing s with
  | zero => simp [steps]
  | succ n ih =>
    rw [Nat.succ_add]
    show (step bw s).bind (steps bw (n + b)) =
      ((step bw s).bind (steps bw n)).bind (steps bw b)
    cases step bw s with
    | none => rfl
    | some s1 => simp only [Option.some_bind]; exact ih s1

/-- A run that reaches a final state in `n` steps is what `run` returns with any
fuel of at least `n`. -/
theorem run_of_steps {bw : Int} (n m : Nat) {s s' : State} (h : steps bw n s = some s')
    (hh : halted s' = true) (hnm : n ≤ m) : run bw m s = some s' := by
  induction n generalizing s m with
  | zero =>
    unfold steps at h
    cases h
    cases m <;> simp [run, hh]
  | succ n ih =>
    unfold steps at h
    cases hs : step bw s with
    | none => rw [hs] at h; cases h
    | some s1 =>
      rw [hs] at h
      simp only [Option.some_bind] at h
      obtain ⟨m', rfl⟩ : ∃ m', m = m' + 1 := ⟨m - 1, by omega⟩
      unfold run
      rw [step_not_halted hs]
      simp only [Bool.false_eq_true, if_false, hs, Option.some_bind]
      exact ih m' h (by omega)

theorem idle_gap_steps (cap bw sA sB : Int) (tB : ℚ) (hcap : 1 ≤ cap)
    (hT : 0 < TRANSMISSION_DELAY sA bw) (hgap : TRANSMISSION_DELAY sA bw < tB) :
    steps bw 4 (init cap [(0, sA), (tB, sB)]) = some
      { events := []
        buffer := [{ category := ARRIVAL, id := 1, size := sB, time := tB }]
        buffer_log := [0]
        stats :=
          { buffer_space_left := cap - 1, time := TRANSMISSION_DELAY sA bw,
            queuing_delay := 0, packets_lost := 0, packets_in := 2, packets_out := 1 }
        draining := false
        admitted := [0, 1]
        departed := [0] } := by
  have hc : ¬ cap ≤ 0 := by omega
  have h0 : 0 < tB := lt_trans hT hgap
  have h1 : ¬ tB = 0 := ne_of_gt h0
  have h2 : ¬ (0 : ℚ) = tB := ne_of_lt h0
  have h3 : ¬ tB < 0 := not_lt.mpr (le_of_lt h0)
  have h4 : ¬ tB ≤ TRANSMISSION_DELAY sA bw := not_le.mpr hgap
  simp [steps, step, init, read_trace, events_insert, event_comparator, main_step, drain_step,
    leave_drain, schedule, new_event, add_buffer_event, remove_buffer_event, QUEUEING_DELAY,
    to_double_zero, hc, h0, h1, h2, h3, h4, hgap]

/-! ## The burst run -/

theorem events_insert_append (e : packet_event) (l : List packet_event)
    (h : ∀ x ∈ l, event_comparator e x = false) : events_insert e l = l ++ [e] := by
  induction l with
  | nil => rfl
  | cons x xs ih =>
    unfold events_insert
    rw [h x (List.mem_cons_self _ _)]
    simp only [Bool.false_eq_true, if_false, List.cons_append]
    rw [ih (fun y hy => h y (List.mem_cons_of_mem _ hy))]

theorem schedule_eq (s : State) :
    schedule s =
      match s.buffer with
      | [] => some s
      | f :: _ =>
        if schedule_time s f ≥ f.time ∧ f.id ∉ s.buffer_log then
          some { s with
                 stats := { s.stats with time := schedule_time s f }
                 buffer_log := f.id :: s.buffer_log
                 events := events_insert
                   { category := DEPARTURE, id := f.id, size := f.size,
                     time := to_double (schedule_time s f) } s.events }
        else some { s with stats := { s.stats with time := schedule_time s f } } := by
  unfold schedule
  split
  · rfl
  · rename_i f rest hb
    change (if schedule_time s f ≥ f.time ∧ f.id ∉ s.buffer_log then _ else _) = _
    rw [new_event_DEPARTURE]
    rfl

theorem schedule_time_of_not_lt (s : State) (f : packet_event)
    (h : ¬ s.stats.time < f.time) : schedule_time s f = s.stats.time := by
  unfold schedule_time
  split
  · rfl
  · simp [h]

theorem arrivals_at_zero_mem (n : Int) (szs : List Int) :
    ∀ x ∈ arrivals_at_zero n szs, x.time = 0 ∧ x.category = ARRIVAL := by
  induction szs generalizing n with
  | nil => simp [arrivals_at_zero]
  | cons sz rest ih =>
    intro x hx
    unfold arrivals_at_zero at hx
    rcases List.mem_cons.mp hx with rfl | hx
    · exact ⟨rfl, rfl⟩
    · exact ih (n + 1) x hx

theorem read_trace_at_zero (szs : List Int) (n : Int) (ev : List packet_event)
    (h : ∀ x ∈ ev, x.time = 0 ∧ x.category = ARRIVAL) :
    read_trace (szs.map fun z => ((0 : ℚ), z)) n ev = ev ++ arrivals_at_zero n szs := by
  induction szs generalizing n ev with
  | nil => simp [read_trace, arrivals_at_zero]
  | cons sz rest ih =>
    simp only [List.map_cons, read_trace, arrivals_at_zero]
    rw [events_insert_append]
    · rw [ih, List.append_assoc]
      · rfl
      · intro x hx
        rcases List.mem_append.mp hx with hx | hx
        · exact h x hx
        · rw [List.mem_singleton] at hx
          subst hx
          exact ⟨rfl, rfl⟩
    · intro x hx
      obtain ⟨ht, hc⟩ := h x hx
      simp [event_comparator, ht, hc]

theorem burst_first_step (bw sz0 : Int) (rest : List Int) :
    step bw (init 1 ((sz0 :: rest).map fun z => ((0 : ℚ), z))) =
      some (burst_state sz0 (arrivals_at_zero 1 rest) [] 1) := by
  have hins : events_insert (departure_at_zero sz0) (arrivals_at_zero 1 rest) =
      arrivals_at_zero 1 rest ++ [departure_at_zero sz0] := by
    apply events_insert_append
    intro x hx
    obtain ⟨ht, hc⟩ := arrivals_at_zero_mem 1 rest x hx
    simp [event_comparator, departure_at_zero, ht, hc]
  unfold init
  rw [read_trace_at_zero _ _ _ (by simp)]
  simp only [arrivals_at_zero, List.nil_append, zero_add]
  simp [step, main_step, add_buffer_event, schedule_eq, schedule_time_of_not_lt, burst_state]
  exact hins

theorem burst_arrival_step (bw sz0 : Int) (a : packet_event) (pend drops : List packet_event)
    (m : Int) (ha : a.time = 0 ∧ a.category = ARRIVAL)
    (hp : ∀ x ∈ pend, x.time = 0 ∧ x.category = ARRIVAL)
    (hd : ∀ x ∈ drops, x.time = 0 ∧ x.category = DROPPED) :
    step bw (burst_state sz0 (a :: pend) drops m) =
      some (burst_state sz0 pend (drops ++ [drop_at_zero a]) (m + 1)) := by
  have hins : events_insert (drop_at_zero a) (pend ++ departure_at_zero sz0 :: drops) =
      pend ++ departure_at_zero sz0 :: (drops ++ [drop_at_zero a]) := by
    rw [events_insert_append]
    · simp
    · intro x hx
      rcases List.mem_append.mp hx with hx | hx
      · obtain ⟨ht, hc⟩ := hp x hx
        simp [event_comparator, drop_at_zero, ht, hc]
      · rcases List.mem_cons.mp hx with rfl | hx
        · simp [event_comparator, drop_at_zero, departure_at_zero]
        · obtain ⟨ht, hc⟩ := hd x hx
          simp [event_comparator, drop_at_zero, ht, hc]
  simp [step, main_step, burst_state, new_event, ha.2, schedule_eq, schedule_time_of_not_lt]
  exact hins

theorem burst_arrival_steps (bw sz0 : Int) (pend drops : List packet_event) (m : Int)
    (hp : ∀ x ∈ pend, x.time = 0 ∧ x.category = ARRIVAL)
    (hd : ∀ x ∈ drops, x.time = 0 ∧ x.category = DROPPED) :
    steps bw pend.length (burst_state sz0 pend drops m) =
      some (burst_state sz0 [] (drops ++ pend.map drop_at_zero) (m + pend.length)) := by
  induction pend generalizing drops m with
  | nil => simp [steps]
  | cons a pend ih =>
    have ha := hp a (List.mem_cons_self _ _)
    have hp' : ∀ x ∈ pend, x.time = 0 ∧ x.category = ARRIVAL :=
      fun x hx => hp x (List.mem_cons_of_mem _ hx)
    rw [List.length_cons]
    unfold steps
    rw [burst_arrival_step bw sz0 a pend drops m ha hp' hd]
    simp only [Option.some_bind]
    rw [ih (drops ++ [drop_at_zero a]) (m + 1) hp']
    · simp only [List.map_cons, List.append_assoc, List.singleton_append, Nat.cast_add,
        Nat.cast_one]
      congr 2
      omega
    · intro x hx
      rcases List.mem_append.mp hx with hx | hx
      · exact hd x hx
      · rw [List.mem_singleton] at hx
        subst hx
        exact ⟨rfl, rfl⟩

theorem burst_depart_step (bw sz0 : Int) (drops : List packet_event) (m : Int) :
    step bw (burst_state sz0 [] drops m) = some (burst_drain sz0 bw drops m 0) := by
  simp [step, main_step, burst_state, burst_drain, departure_at_zero, QUEUEING_DELAY]

theorem burst_drain_step (bw sz0 : Int) (d : packet_event) (drops : List packet_event)
    (m l : Int) (hT : 0 ≤ TRANSMISSION_DELAY sz0 bw) (hd : d.time = 0 ∧ d.category = DROPPED) :
    step bw (burst_drain sz0 bw (d :: drops) m l) =
      some (burst_drain sz0 bw drops m (l + 1)) := by
  simp [step, drain_step, burst_drain, hd.1, hd.2, not_lt.mpr hT]

theorem burst_drain_steps (bw sz0 : Int) (drops : List packet_event) (m l : Int)
    (hT : 0 ≤ TRANSMISSION_DELAY sz0 bw)
    (hd : ∀ x ∈ drops, x.time = 0 ∧ x.category = DROPPED) :
    steps bw drops.length (burst_drain sz0 bw drops m l) =
      some (burst_drain sz0 bw [] m (l + drops.length)) := by
  induction drops generalizing l with
  | nil => simp [steps]
  | cons d drops ih =>
    rw [List.length_cons]
    unfold steps
    rw [burst_drain_step bw sz0 d drops m l hT (hd d (List.mem_cons_self _ _))]
    simp only [Option.some_bind]
    rw [ih (l + 1) (fun x hx => hd x (List.mem_cons_of_mem _ hx))]
    simp only [Nat.cast_add, Nat.cast_one]
    congr 2
    omega

theorem burst_leave_step (bw sz0 : Int) (m l : Int) :
    step bw (burst_drain sz0 bw [] m l) = some (burst_final sz0 bw m l) := by
  simp [step, drain_step, leave_drain, remove_buffer_event, schedule_eq, burst_drain,
    burst_final]

theorem arrivals_at_zero_length (n : Int) (szs : List Int) :
    (arrivals_at_zero n szs).length = szs.length := by
  induction szs generalizing n with
  | nil => rfl
  | cons sz rest ih => simp [arrivals_at_zero, ih]

theorem burst_clock_zero_steps (bw sz0 : Int) (rest : List Int) :
    steps bw (1 + rest.length) (init 1 ((sz0 :: rest).map fun z => ((0 : ℚ), z))) =
      some (burst_state sz0 [] ((arrivals_at_zero 1 rest).map drop_at_zero)
        (1 + rest.length)) := by
  rw [steps_add]
  have h1 : steps bw 1 (init 1 ((sz0 :: rest).map fun z => ((0 : ℚ), z))) =
      some (burst_state sz0 (arrivals_at_zero 1 rest) [] 1) := by
    simp only [steps, burst_first_step, Option.some_bind]
  rw [h1, Option.some_bind]
  have h2 := burst_arrival_steps bw sz0 (arrivals_at_zero 1 rest) [] 1
    (arrivals_at_zero_mem 1 rest) (by simp)
  rw [arrivals_at_zero_length] at h2
  simpa using h2

theorem burst_leave_early_step (bw sz0 : Int) (drops : List packet_event) (m l : Int)
    (hT : TRANSMISSION_DELAY sz0 bw < 0) (hd : ∀ x ∈ drops, x.time = 0 ∧ x.category = DROPPED) :
    step bw (burst_drain sz0 bw drops m l) = some (burst_tail sz0 bw drops m l) := by
  cases drops with
  | nil =>
    simp [step, drain_step, leave_drain, remove_buffer_event, schedule_eq, burst_drain,
      burst_tail]
  | cons d ds =>
    have h := hd d (List.mem_cons_self _ _)
    simp [step, drain_step, leave_drain, remove_buffer_event, schedule_eq, burst_drain,
      burst_tail, h.1, hT]

theorem burst_tail_step (bw sz0 : Int) (d : packet_event) (drops : List packet_event)
    (m l : Int) (hd : d.category = DROPPED) :
    step bw (burst_tail sz0 bw (d :: drops) m l) =
      some (burst_tail sz0 bw drops m (l + 1)) := by
  simp [step, main_step, schedule_eq, burst_tail, hd]

theorem burst_tail_steps (bw sz0 : Int) (drops : List packet_event) (m l : Int)
    (hd : ∀ x ∈ drops, x.time = 0 ∧ x.category = DROPPED) :
    steps bw drops.length (burst_tail sz0 bw drops m l) =
      some (burst_tail sz0 bw [] m (l + drops.length)) := by
  induction drops generalizing l with
  | nil => simp [steps]
  | cons d drops ih =>
    rw [List.length_cons]
    unfold steps
    rw [burst_tail_step bw sz0 d drops m l (hd d (List.mem_cons_self _ _)).2]
    simp only [Option.some_bind]
    rw [ih (l + 1) (fun x hx => hd x (List.mem_cons_of_mem _ hx))]
    simp only [Nat.cast_add, Nat.cast_one]
    congr 2
    omega

/-- From the start of the drain loop of packet 0 the burst run ends in as many steps
as Dropped events are pending, plus one: the drain loop processes them when the
transmission delay is not negative, the outer loop when it wrapped to a negative
value. -/
theorem burst_service_steps (bw sz0 : Int) (drops : List packet_event) (m : Int)
    (hd : ∀ x ∈ drops, x.time = 0 ∧ x.category = DROPPED) :
    steps bw (drops.length + 1) (burst_drain sz0 bw drops m 0) =
      some (burst_final sz0 bw m drops.length) := by
  by_cases hT : 0 ≤ TRANSMISSION_DELAY sz0 bw
  · rw [steps_add, burst_drain_steps bw sz0 drops m 0 hT hd, Option.some_bind]
    simp only [steps, burst_leave_step, Option.some_bind, zero_add]
  · rw [Nat.add_comm, steps_add]
    have h1 : steps bw 1 (burst_drain sz0 bw drops m 0) =
        some (burst_tail sz0 bw drops m 0) := by
      simp only [steps, burst_leave_early_step bw sz0 drops m 0 (not_le.mp hT) hd,
        Option.some_bind]
    rw [h1, Option.some_bind, burst_tail_steps bw sz0 drops m 0 hd]
    simp only [zero_add]
    rfl

theorem burst_all_steps (bw sz0 : Int) (rest : List Int) :
    steps bw ((1 + rest.length) + (1 + (rest.length + 1)))
        (init 1 ((sz0 :: rest).map fun z => ((0 : ℚ), z))) =
      some (burst_final sz0 bw (1 + rest.length) rest.length) := by
  rw [steps_add, burst_clock_zero_steps, Option.some_bind, steps_add]
  have h3 : steps bw 1
      (burst_state sz0 [] ((arrivals_at_zero 1 rest).map drop_at_zero) (1 + rest.length)) =
      some (burst_drain sz0 bw ((arrivals_at_zero 1 rest).map drop_at_zero)
        (1 + rest.length) 0) := by
    simp only [steps, burst_depart_step, Option.some_bind]
  rw [h3, Option.some_bind]
  have h4 := burst_service_steps bw sz0 ((arrivals_at_zero 1 rest).map drop_at_zero)
    (1 + rest.length) (by
      intro x hx
      obtain ⟨a, _, rfl⟩ := List.mem_map.mp hx
      exact ⟨rfl, rfl⟩)
  rw [List.length_map, arrivals_at_zero_length] at h4
  exact h4

/-- The idle-gap run of two records: whenever B arrives after the end of the
transmission of A and no further record follows, the run ends with B in the buffer,
one packet out and the clock at the end of the transmission of A. -/
theorem idle_gap_run (cap bw sA sB : Int) (tB : ℚ) (hcap : 1 ≤ cap)
    (hT : 0 < TRANSMISSION_DELAY sA bw) (hgap : TRANSMISSION_DELAY sA bw < tB) :
    simulate cap bw [(0, sA), (tB, sB)] = some
      { events := []
        buffer := [{ category := ARRIVAL, id := 1, size := sB, time := tB }]
        buffer_log := [0]
        stats :=
          { buffer_space_left := cap - 1, time := TRANSMISSION_DELAY sA bw,
            queuing_delay := 0, packets_lost := 0, packets_in := 2, packets_out := 1 }
        draining := false
        admitted := [0, 1]
        departed := [0] } :=
  run_of_steps 4 _ (idle_gap_steps cap bw sA sB tB hcap hT hgap) rfl (by simp)

/-! ## Event bookkeeping -/

theorem counts_micro {bw : Int} {s mid : State} (h : counts_ok s)
    (hm : Micro bw s mid) : counts_ok mid := by
  unfold counts_ok pending_dropped at *
  obtain ⟨h1, h2⟩ := h
  cases hm with
  | drop_tail e rest hev hcat hmain hdrain hfull =>
    rw [hev, List.countP_cons] at h1 h2
    simp only [countP_events_insert]
    simp [hcat.1, hcat.2] at h1 h2 ⊢
    constructor <;> omega
  | enqueue e rest hev hcat hmain hdrain hroom =>
    rw [hev, List.countP_cons] at h1 h2
    simp [hcat.1, hcat.2] at h1 h2 ⊢
    constructor <;> omega
  | lose e rest hev hcat hdrain =>
    rw [hev, List.countP_cons] at h1 h2
    simp [hcat] at h1 h2 ⊢
    constructor <;> omega
  | depart e rest head brest hev hcat hmain hbuf =>
    rw [hev, List.countP_cons] at h1 h2
    simp [hcat] at h1 h2 ⊢
    constructor <;> omega
  | skip e rest hev hcat hmain =>
    rw [hev, List.countP_cons] at h1 h2
    simp [hcat.2.1, hcat.2.2] at h1 h2 ⊢
    constructor <;> omega
  | leave head brest hstop hdrain hbuf => exact ⟨h1, h2⟩

theorem counts_schedule {s s' : State} (h : counts_ok s)
    (hs : schedule s = some s') : counts_ok s' := by
  unfold counts_ok pending_dropped at *
  obtain ⟨h1, h2⟩ := h
  rcases schedule_cases hs with ⟨_, rfl⟩ | ⟨f, rest, hb, ⟨_, rfl⟩ | ⟨_, _, rfl⟩⟩
  · exact ⟨h1, h2⟩
  · exact ⟨h1, h2⟩
  · simp only [countP_events_insert]
    simp at h1 h2 ⊢
    constructor <;> omega

theorem Reachable.counts_ok {cap bw : Int} {trace : List (ℚ × Int)} {s : State}
    (hr : Reachable cap bw trace s) : Router.counts_ok s := by
  refine hr.invariant Router.counts_ok ?_
    (fun _ _ h hm => counts_micro h hm)
    (fun _ _ h _ hs => counts_schedule h hs)
  have hc := init_events_category trace 0 [] (by simp)
  unfold Router.counts_ok pending_dropped
  have h1 : (init cap trace).events.countP (fun e => decide (e.category = DEPARTURE)) = 0 := by
    rw [List.countP_eq_zero]
    intro e he
    simp [hc e he]
  have h2 : (init cap trace).events.countP (fun e => decide (e.category = DROPPED)) = 0 := by
    rw [List.countP_eq_zero]
    intro e he
    simp [hc e he]
  rw [h1, h2]
  simp [init]

/-! ## Free slots -/

theorem space_micro {bw : Int} {s mid : State} (h : space_ok s)
    (hm : Micro bw s mid) : space_ok mid := by
  unfold space_ok at *
  cases hm with
  | drop_tail e rest hev hcat hmain hdrain hfull => exact h
  | enqueue e rest hev hcat hmain hdrain hroom => simp only; omega
  | lose e rest hev hcat hdrain => exact h
  | depart e rest head brest hev hcat hmain hbuf => exact h
  | skip e rest hev hcat hmain => exact h
  | leave head brest hstop hdrain hbuf => simp only; omega

theorem space_schedule {s s' : State} (h : space_ok s)
    (hs : schedule s = some s') : space_ok s' := by
  unfold space_ok at *
  rcases schedule_cases hs with ⟨_, rfl⟩ | ⟨f, rest, hb, ⟨_, rfl⟩ | ⟨_, _, rfl⟩⟩
  · exact h
  · exact h
  · exact h

theorem Reachable.space_ok {cap bw : Int} {trace : List (ℚ × Int)} {s : State}
    (hcap : 0 ≤ cap) (hr : Reachable cap bw trace s) : Router.space_ok s :=
  hr.invariant Router.space_ok hcap
    (fun _ _ h hm => space_micro h hm)
    (fun _ _ h _ hs => space_schedule h hs)

theorem admitted_micro {bw : Int} {s mid : State} (hm : Micro bw s mid)
    (hne : mid.admitted ≠ s.admitted) : 0 < s.stats.buffer_space_left := by
  cases hm with
  | drop_tail e rest hev hcat hmain hdrain hfull => exact absurd rfl hne
  | enqueue e rest hev hcat hmain hdrain hroom => exact hroom
  | lose e rest hev hcat hdrain => exact absurd rfl hne
  | depart e rest head brest hev hcat hmain hbuf => exact absurd rfl hne
  | skip e rest hev hcat hmain => exact absurd rfl hne
  | leave head brest hstop hdrain hbuf => exact absurd rfl hne

theorem admitted_schedule {s s' : State} (hs : schedule s = some s') :
    s'.admitted = s.admitted ∧ s'.buffer = s.buffer := by
  rcases schedule_cases hs with ⟨_, rfl⟩ | ⟨f, rest, hb, ⟨_, rfl⟩ | ⟨_, _, rfl⟩⟩
  · exact ⟨rfl, rfl⟩
  · exact ⟨rfl, rfl⟩
  · exact ⟨rfl, rfl⟩

/-! ## Non-positive capacity -/

theorem starved_micro {bw : Int} {s mid : State} (h : starved s)
    (hm : Micro bw s mid) : starved mid := by
  unfold starved at *
  obtain ⟨h1, h2, h3, h4⟩ := h
  cases hm with
  | drop_tail e rest hev hcat hmain hdrain hfull => exact ⟨h1, h2, h3, h4⟩
  | enqueue e rest hev hcat hmain hdrain hroom => omega
  | lose e rest hev hcat hdrain => exact ⟨h1, h2, h3, h4⟩
  | depart e rest head brest hev hcat hmain hbuf => rw [h1] at hbuf; cases hbuf
  | skip e rest hev hcat hmain => exact ⟨h1, h2, h3, h4⟩
  | leave head brest hstop hdrain hbuf => rw [h1] at hbuf; cases hbuf

theorem starved_schedule {s s' : State} (h : starved s)
    (hs : schedule s = some s') : starved s' := by
  rcases schedule_cases hs with ⟨_, rfl⟩ | ⟨f, rest, hb, _⟩
  · exact h
  · rw [h.1] at hb; cases hb

theorem Reachable.starved {cap bw : Int} {trace : List (ℚ × Int)} {s : State}
    (hcap : cap ≤ 0) (hr : Reachable cap bw trace s) : Router.starved s :=
  hr.invariant Router.starved ⟨rfl, hcap, rfl, rfl⟩
    (fun _ _ h hm => starved_micro h hm)
    (fun _ _ h _ hs => starved_schedule h hs)

/-! ## Queueing delay -/

theorem delay_micro {bw : Int} {s mid : State} (hd : departure_ok s) (h : delay_ok s)
    (hm : Micro bw s mid) : delay_ok mid := by
  unfold delay_ok pending_departures at *
  obtain ⟨h1, h2⟩ := h
  cases hm with
  | drop_tail e rest hev hcat hmain hdrain hfull =>
    refine ⟨h1, ?_⟩
    intro hdr hne
    simp only at hdr hne ⊢
    rw [filter_events_insert_of_neg _ _ _ (by simp)] at hne
    apply h2 hdr
    rw [hev, List.filter_cons]
    simp only [hcat.1, decide_False, Bool.false_eq_true, if_false]
    exact hne
  | enqueue e rest hev hcat hmain hdrain hroom =>
    refine ⟨h1, ?_⟩
    intro hdr hne x hx
    simp only at hdr hne hx ⊢
    have hne' : s.events.filter (fun e => decide (e.category = DEPARTURE)) ≠ [] := by
      rw [hev, List.filter_cons]
      simp only [hcat.1, decide_False, Bool.false_eq_true, if_false]
      exact hne
    rcases hd.1 with hnil | ⟨_, d, hh, r, _, hb, _⟩
    · exact absurd hnil hne'
    · rw [hb] at hx
      simp only [List.cons_append, List.head?_cons, Option.some.injEq] at hx
      exact h2 hdr hne' x (by rw [hb]; simp [hx])
  | lose e rest hev hcat hdrain =>
    refine ⟨h1, ?_⟩
    intro hdr hne
    apply h2 hdr
    rw [hev, List.filter_cons]
    simp only [hcat, show ¬ (DROPPED = DEPARTURE) by decide, decide_False,
      Bool.false_eq_true, if_false]
    exact hne
  | depart e rest head brest hev hcat hmain hbuf =>
    refine ⟨?_, fun hx => by cases hx⟩
    have hne : s.events.filter (fun e => decide (e.category = DEPARTURE)) ≠ [] := by
      rw [hev, List.filter_cons]
      simp [hcat]
    have := h2 hmain hne head (by rw [hbuf]; rfl)
    simp only [QUEUEING_DELAY]
    linarith
  | skip e rest hev hcat hmain =>
    refine ⟨h1, ?_⟩
    intro hdr hne
    apply h2 hdr
    rw [hev, List.filter_cons]
    simp only [hcat.2.2, decide_False, Bool.false_eq_true, if_false]
    exact hne
  | leave head brest hstop hdrain hbuf =>
    refine ⟨h1, ?_⟩
    intro _ hne
    rcases hd.1 with hnil | ⟨hf, _⟩
    · exact absurd hnil hne
    · rw [hdrain] at hf; cases hf

theorem delay_schedule {s s' : State} (h : delay_ok s)
    (hs : schedule s = some s') : delay_ok s' := by
  unfold delay_ok at *
  obtain ⟨h1, h2⟩ := h
  rcases schedule_cases hs with ⟨_, rfl⟩ | ⟨f, rest, hb, ⟨_, rfl⟩ | ⟨hge, _, rfl⟩⟩
  · exact ⟨h1, h2⟩
  · refine ⟨h1, ?_⟩
    intro hdr hne x hx
    exact le_trans (h2 hdr hne x hx) (schedule_time_ge s f)
  · refine ⟨h1, ?_⟩
    intro hdr hne x hx
    simp only at hx
    rw [hb] at hx
    simp only [List.head?_cons, Option.some.injEq] at hx
    subst hx
    exact hge

theorem Reachable.delay_ok {cap bw : Int} {trace : List (ℚ × Int)} {s : State}
    (hr : Reachable cap bw trace s) : Router.delay_ok s := by
  have h : Router.departure_ok s ∧ Router.delay_ok s := by
    refine hr.invariant (fun s => Router.departure_ok s ∧ Router.delay_ok s) ?_ ?_ ?_
    · refine ⟨departure_init cap trace, le_refl _, ?_⟩
      intro _ _ x hx
      simp [init] at hx
    · intro s mid h hm
      exact ⟨departure_micro h.1 hm, delay_micro h.1 h.2 hm⟩
    · intro s s' h hd hs
      exact ⟨departure_schedule h.1 hd hs, delay_schedule h.2 hs⟩
  exact h.2

theorem delay_step_micro {bw : Int} {s mid : State} (h : delay_ok s)
    (hm : Micro bw s mid) : s.stats.queuing_delay ≤ mid.stats.queuing_delay := by
  cases hm with
  | drop_tail e rest hev hcat hmain hdrain hfull => exact le_refl _
  | enqueue e rest hev hcat hmain hdrain hroom => exact le_refl _
  | lose e rest hev hcat hdrain => exact le_refl _
  | depart e rest head brest hev hcat hmain hbuf =>
    have hne : pending_departures s ≠ [] := by
      unfold pending_departures
      rw [hev, List.filter_cons]
      simp [hcat]
    have := h.2 hmain hne head (by rw [hbuf]; rfl)
    simp only [QUEUEING_DELAY]
    linarith
  | skip e rest hev hcat hmain => exact le_refl _
  | leave head brest hstop hdrain hbuf => exact le_refl _

theorem delay_step_schedule {s s' : State} (hs : schedule s = some s') :
    s'.stats.queuing_delay = s.stats.queuing_delay := by
  rcases schedule_cases hs with ⟨_, rfl⟩ | ⟨f, rest, hb, ⟨_, rfl⟩ | ⟨_, _, rfl⟩⟩
  · rfl
  · rfl
  · rfl

/-! ## The drain loop -/

theorem drain_done_clock {s : State} (hd : departure_ok s) (hsort : events_sorted s)
    (hdr : s.draining = true) (hdone : drain_done s = true) :
    ∀ x ∈ s.events, s.stats.time < x.time := by
  unfold drain_done at hdone
  split at hdone
  · rename_i hev
    intro x hx
    rw [hev] at hx
    cases hx
  · rename_i l rest hev
    have hnodep : l.category ≠ DEPARTURE := by
      intro hc
      rcases hd.1 with hnil | ⟨hf, _⟩
      · unfold pending_departures at hnil
        rw [hev, List.filter_cons] at hnil
        simp [hc] at hnil
      · rw [hdr] at hf; cases hf
    have hl : s.stats.time < l.time := by
      rcases of_decide_eq_true hdone with hc | hc
      · exact absurd hc hnodep
      · exact hc
    unfold events_sorted at hsort
    rw [hev, List.pairwise_cons] at hsort
    intro x hx
    rw [hev] at hx
    rcases List.mem_cons.mp hx with rfl | hx
    · exact hl
    · have hcmp := hsort.1 x hx
      rw [Bool.eq_false_iff, Ne, event_comparator_iff] at hcmp
      have : ¬ x.time < l.time := fun hlt => hcmp (Or.inl hlt)
      exact lt_of_lt_of_le hl (not_lt.mp this)

theorem gap_drain_reachable : Reachable 5 1000000 [(0, 100), (10, 100)] gap_drain :=
  reachable_steps 2 Reachable.start (by decide!)

theorem overflow_pending_reachable : Reachable 1 8 [(0, 2 ^ 60)] overflow_pending :=
  reachable_steps 1 Reachable.start (by decide!)

theorem overflow_drain_step : step 8 overflow_pending = some overflow_drain := by
  decide!

theorem rounded_drain_reachable : Reachable 1 80 [(0, 1), (1 / 16, 1)] rounded_drain :=
  reachable_steps 2 Reachable.start (by decide!)

theorem event_comparator_key {a a' b b' : packet_event} (ha : event_key a = event_key a')
    (hb : event_key b = event_key b') : event_comparator a b = event_comparator a' b' := by
  unfold event_key at ha hb
  simp only [Prod.mk.injEq] at ha hb
  unfold event_comparator
  rw [ha.1, ha.2.2, hb.1, hb.2.2]

theorem events_insert_key (e1 e2 : packet_event) (l1 l2 : List packet_event)
    (hk : event_key e1 = event_key e2) (hl : l1.map event_key = l2.map event_key) :
    (events_insert e1 l1).map event_key = (events_insert e2 l2).map event_key := by
  induction l1 generalizing l2 with
  | nil =>
    cases l2 with
    | nil => simp [events_insert, hk]
    | cons y ys => simp at hl
  | cons x xs ih =>
    cases l2 with
    | nil => simp at hl
    | cons y ys =>
      simp only [List.map_cons, List.cons.injEq] at hl
      unfold events_insert
      rw [event_comparator_key hk hl.1]
      split
      · simp only [List.map_cons, hk, hl.1, hl.2]
      · simp only [List.map_cons, hl.1, ih ys hl.2]

theorem read_trace_key (t1 t2 : List (ℚ × Int)) (n : Int) (ev1 ev2 : List packet_event)
    (ht : t1.map Prod.fst = t2.map Prod.fst)
    (hev : ev1.map event_key = ev2.map event_key) :
    (read_trace t1 n ev1).map event_key = (read_trace t2 n ev2).map event_key := by
  induction t1 generalizing t2 n ev1 ev2 with
  | nil =>
    cases t2 with
    | nil => exact hev
    | cons r rs => simp at ht
  | cons r1 rs1 ih =>
    cases t2 with
    | nil => simp at ht
    | cons r2 rs2 =>
      obtain ⟨a1, z1⟩ := r1
      obtain ⟨a2, z2⟩ := r2
      simp only [List.map_cons, List.cons.injEq] at ht
      unfold read_trace
      apply ih _ _ _ _ ht.2
      apply events_insert_key _ _ _ _ _ hev
      simp [event_key, ht.1]

/-! ## The claims -/

/-- C1: for every trace, buffer capacity and bandwidth (positive or not), the run of
the engine loop ends, with no event pending, in a state whose counters satisfy
`packets_in = packets_lost + packets_out + buffer.size()`. -/
theorem C1_conservation_at_end (cap bw : Int) (trace : List (ℚ × Int)) :
    ∃ s, simulate cap bw trace = some s ∧ s.events = [] ∧ s.draining = false ∧
      s.stats.packets_in =
        s.stats.packets_lost + s.stats.packets_out + (s.buffer.length : Int) := by
  obtain ⟨s, hs, hh, hr⟩ := simulate_terminates cap bw trace
  obtain ⟨hd, hev⟩ := (halted_iff s).mp hh
  refine ⟨s, hs, hev, hd, ?_⟩
  have h := hr.conservation_ok
  unfold conservation_ok pending_dropped at h
  rw [hd, hev] at h
  simpa using h

/-- C2, as stated, fails: with capacity 2 and bandwidth 8, swapping the two records
that arrive at time 0 changes every metric of the report but `packets_in`: final
clock 4 against 3, `packets_out` 3 against 2, `packets_lost` 0 against 1, loss
percentage 0 against 100/3, average queueing delay 5/6 against 1. -/
theorem C2_reorder_changes_report :
    reorders_equal_time [(0, 1), (0, 2), (3 / 2, 1)] [(0, 2), (0, 1), (3 / 2, 1)] ∧
    (simulate 2 8 [(0, 1), (0, 2), (3 / 2, 1)]).map (fun s => print_stats s.stats) =
      some { time := 4, packets_in := 3, packets_out := 3, packets_lost := 0,
             lost_packets := 0, average_queueing_delay := 5 / 6 } ∧
    (simulate 2 8 [(0, 2), (0, 1), (3 / 2, 1)]).map (fun s => print_stats s.stats) =
      some { time := 3, packets_in := 3, packets_out := 2, packets_lost := 1,
             lost_packets := 100 / 3, average_queueing_delay := 1 } := by
  refine ⟨⟨by decide!, List.Perm.swap _ _ _⟩, by decide!, by decide!⟩

/-- C2, amended: two traces that differ only in the order of records sharing an
arrival time start the engine from pending-event lists that agree, position by
position, in category, id and time (only the sizes are permuted), and both runs end
with the same `packets_in`, the number of records. -/
theorem C2_reorder_keeps_packets_in (cap bw : Int) (t1 t2 : List (ℚ × Int))
    (h : reorders_equal_time t1 t2) :
    (init cap t1).events.map event_key = (init cap t2).events.map event_key ∧
    ∃ s1 s2, simulate cap bw t1 = some s1 ∧ simulate cap bw t2 = some s2 ∧
      (print_stats s1.stats).packets_in = (print_stats s2.stats).packets_in ∧
      (print_stats s1.stats).packets_in = (t1.length : Int) := by
  refine ⟨read_trace_key t1 t2 0 [] [] h.1 rfl, ?_⟩
  obtain ⟨s1, hs1, hh1, hr1⟩ := simulate_terminates cap bw t1
  obtain ⟨s2, hs2, hh2, hr2⟩ := simulate_terminates cap bw t2
  have e1 : s1.stats.packets_in = (t1.length : Int) := by
    have h := hr1.arrivals_ok.2
    rw [((halted_iff s1).mp hh1).2] at h
    simpa using h
  have e2 : s2.stats.packets_in = (t2.length : Int) := by
    have h := hr2.arrivals_ok.2
    rw [((halted_iff s2).mp hh2).2] at h
    simpa using h
  refine ⟨s1, s2, hs1, hs2, ?_, e1⟩
  show s1.stats.packets_in = s2.stats.packets_in
  rw [e1, e2, h.2.length_eq]

/-- Witness for C2 amended, at the two orders of the counterexample. -/
theorem C2_reorder_keeps_packets_in_witness :
    (init 2 [(0, 1), (0, 2), (3 / 2, 1)]).events.map event_key =
      (init 2 [(0, 2), (0, 1), (3 / 2, 1)]).events.map event_key ∧
    ∃ s1 s2, simulate 2 8 [(0, 1), (0, 2), (3 / 2, 1)] = some s1 ∧
      simulate 2 8 [(0, 2), (0, 1), (3 / 2, 1)] = some s2 ∧
      (print_stats s1.stats).packets_in = (print_stats s2.stats).packets_in ∧
      (print_stats s1.stats).packets_in =
        (([(0, 1), (0, 2), (3 / 2, 1)] : List (ℚ × Int)).length : Int) :=
  C2_reorder_keeps_packets_in 2 8 _ _ ⟨by decide!, List.Perm.swap _ _ _⟩

/-- C3, on the code: in Scenario D (capacity 5, bandwidth 1,000,000 bps, A = (0, 100
bytes), B = (10, 100 bytes)) the run ends with B counted in but never served: it is
left in the buffer, `packets_out` is 1 and the final clock is 1/1250, the end of A's
transmission. -/
theorem C3_scenario_D_last_packet_unserved :
    (simulate 5 1000000 [(0, 100), (10, 100)]).map
        (fun s => (print_stats s.stats, s.buffer)) =
      some ({ time := 1 / 1250, packets_in := 2, packets_out := 1, packets_lost := 0,
              lost_packets := 0, average_queueing_delay := 0 },
            [{ category := ARRIVAL, id := 1, size := 100, time := 10 }]) := by
  decide!

/-- C4: in every reachable state, the states inside the drain loop of a Departure
included, `buffer.size() + buffer_space_left` is the configured capacity. -/
theorem C4_occupancy (cap bw : Int) (trace : List (ℚ × Int)) (s : State)
    (hr : Reachable cap bw trace s) :
    (s.buffer.length : Int) + s.stats.buffer_space_left = cap :=
  hr.occupancy_ok

/-- Witness for C4, inside the drain loop of the sample run. -/
theorem C4_occupancy_witness :
    sample_drain.draining = true ∧
    (sample_drain.buffer.length : Int) + sample_drain.stats.buffer_space_left = 1 :=
  ⟨rfl, C4_occupancy 1 8 sample_trace sample_drain sample_drain_reachable⟩

/-- C5, as stated, fails: with capacity 1, bandwidth 8 and one record of `2 ^ 60`
bytes (a positive size), the product `size * 8` wraps to `-2 ^ 63` and the Departure
of the packet moves the clock from 0 back to `-2 ^ 60`. -/
theorem C5_clock_goes_back_on_overflow :
    (∀ r ∈ ([(0, 2 ^ 60)] : List (ℚ × Int)), 0 < r.2) ∧ (0 : Int) < 8 ∧
    Reachable 1 8 [(0, 2 ^ 60)] overflow_pending ∧
    step 8 overflow_pending = some overflow_drain ∧
    overflow_drain.stats.time < overflow_pending.stats.time := by
  refine ⟨by decide!, by decide, overflow_pending_reachable, overflow_drain_step, by decide!⟩

/-- C5, amended: for a trace whose sizes are positive and below `2 ^ 60` (so that
`size * 8` fits a `long`) and a positive bandwidth the clock starts at 0 and never
goes back: every step of the engine (an iteration of the outer loop, the start of a
Departure, a drained event, the end of a drain) leaves it at least as large as
before. -/
theorem C5_clock_monotone (cap bw : Int) (trace : List (ℚ × Int))
    (hsz : ∀ r ∈ trace, 0 < r.2 ∧ r.2 < 2 ^ 60) (hbw : 0 < bw) (s s' : State)
    (hr : Reachable cap bw trace s) (hs : step bw s = some s') :
    (init cap trace).stats.time = 0 ∧ 0 ≤ s.stats.time ∧ s.stats.time ≤ s'.stats.time :=
  ⟨rfl, hr.clock_nonneg hsz hbw, clock_step hbw (hr.sizes_ok hsz) hs⟩

/-- Witness for C5 amended: the Departure of packet 0 in the sample run moves the
clock from 0 to 2. -/
theorem C5_clock_monotone_witness :
    (init 1 sample_trace).stats.time = 0 ∧ 0 ≤ sample_pending.stats.time ∧
      sample_pending.stats.time ≤ sample_drain.stats.time :=
  C5_clock_monotone 1 8 sample_trace sample_trace_sizes (by decide) sample_pending
    sample_drain sample_pending_reachable sample_drain_step

/-- C6: in every reachable state at most one Departure event is pending, so no two
pending Departure events share a packet id. -/
theorem C6_no_duplicate_departure (cap bw : Int) (trace : List (ℚ × Int)) (s : State)
    (hr : Reachable cap bw trace s) :
    (pending_departures s).length ≤ 1 ∧
      ((pending_departures s).map fun d => d.id).Nodup := by
  rcases hr.departure_ok.1 with h | ⟨_, d, _, _, h, _⟩
  · rw [h]; simp
  · rw [h]; simp

/-- Witness for C6, in the sample run with the Departure of packet 0 pending. -/
theorem C6_no_duplicate_departure_witness :
    (pending_departures sample_pending).length ≤ 1 ∧
      ((pending_departures sample_pending).map fun d => d.id).Nodup :=
  C6_no_duplicate_departure 1 8 sample_trace sample_pending sample_pending_reachable

/-- C7: in every reachable state the ids of the Departure events dispatched so far,
in dispatch order, are an initial segment of the ids admitted to the buffer, in
admission order. -/
theorem C7_fifo (cap bw : Int) (trace : List (ℚ × Int)) (s : State)
    (hr : Reachable cap bw trace s) : s.departed <+: s.admitted := by
  obtain ⟨h1, h2⟩ := hr.fifo_ok
  cases hd : s.draining with
  | false => exact ⟨_, (h1 hd).symm⟩
  | true =>
    obtain ⟨h, rest, dp, hb, hdep, hadm⟩ := h2 hd
    refine ⟨rest.map (fun p => p.id), ?_⟩
    rw [hadm, hdep, hb]
    simp

/-- Witness for C7, in the sample run after packet 0 has been dispatched. -/
theorem C7_fifo_witness : sample_drain.departed <+: sample_drain.admitted :=
  C7_fifo 1 8 sample_trace sample_drain sample_drain_reachable

/-- C8: with capacity 1 and a positive bandwidth, for every burst of `k` records
(`k ≥ 1`, first size positive) that all arrive at time 0, the run reaches, with the
clock still at 0, a state where the Departure of packet 0 is pending together with one
Dropped event, timestamped 0, for each later packet in id order; the run ends with
`packets_in = k`, `packets_out = 1`, `packets_lost = k - 1`, packet 0 being the only
packet admitted and the only one served. -/
theorem C8_drop_tail (bw sz0 : Int) (rest : List Int) (hbw : 0 < bw) (h0 : 0 < sz0) :
    ∃ mid fin : State,
      Reachable 1 bw ((sz0 :: rest).map fun z => ((0 : ℚ), z)) mid ∧
      mid.stats.time = 0 ∧
      mid.events = departure_at_zero sz0 :: (arrivals_at_zero 1 rest).map drop_at_zero ∧
      simulate 1 bw ((sz0 :: rest).map fun z => ((0 : ℚ), z)) = some fin ∧
      fin.stats.packets_in = (rest.length : Int) + 1 ∧
      fin.stats.packets_out = 1 ∧
      fin.stats.packets_lost = (rest.length : Int) ∧
      fin.admitted = [0] ∧ fin.departed = [0] := by
  have _ := hbw
  have _ := h0
  refine ⟨burst_state sz0 [] ((arrivals_at_zero 1 rest).map drop_at_zero) (1 + rest.length),
    burst_final sz0 bw (1 + rest.length) rest.length,
    reachable_steps _ Reachable.start (burst_clock_zero_steps bw sz0 rest),
    rfl, rfl, ?_, ?_, rfl, rfl, rfl, rfl⟩
  · apply run_of_steps _ _ (burst_all_steps bw sz0 rest) rfl
    simp only [List.length_map, List.length_cons]
    omega
  · show (1 : Int) + (rest.length : Int) = (rest.length : Int) + 1
    omega

/-- Witness for C8: Scenario C (bandwidth 8,000,000 bps, sizes 1,000,000 / 500,000 /
500,000) ends with in = 3, out = 1, lost = 2. -/
theorem C8_drop_tail_witness :
    ∃ mid fin : State,
      Reachable 1 8000000 [(0, 1000000), (0, 500000), (0, 500000)] mid ∧
      mid.stats.time = 0 ∧
      mid.events =
        [{ category := DEPARTURE, id := 0, size := 1000000, time := 0 },
         { category := DROPPED, id := 1, size := 500000, time := 0 },
         { category := DROPPED, id := 2, size := 500000, time := 0 }] ∧
      simulate 1 8000000 [(0, 1000000), (0, 500000), (0, 500000)] = some fin ∧
      fin.stats.packets_in = 3 ∧
      fin.stats.packets_out = 1 ∧
      fin.stats.packets_lost = 2 ∧
      fin.admitted = [0] ∧ fin.departed = [0] :=
  C8_drop_tail 8000000 1000000 [500000, 500000] (by decide) (by decide)

/-- C10: `event_comparator` is the strict lexicographic order on (time, category),
and in every reachable state the event at the front of `events` (the one the outer
loop or the drain loop extracts next) has no pending event that compares strictly
before it; in particular, when a pending Arrival has the same time as the extracted
event, the extracted event is neither a Departure nor a Dropped event. -/
theorem C10_extract_min (cap bw : Int) (trace : List (ℚ × Int)) (s : State)
    (e : packet_event) (rest : List packet_event)
    (hr : Reachable cap bw trace s) (hev : s.events = e :: rest) :
    (∀ a b : packet_event, event_comparator a b = true ↔
      (a.time < b.time ∨ (a.time = b.time ∧ a.category < b.category))) ∧
    (∀ x ∈ s.events, event_comparator x e = false) ∧
    (∀ x ∈ s.events, x.category = ARRIVAL → x.time = e.time →
      e.category ≠ DEPARTURE ∧ e.category ≠ DROPPED) := by
  have hsorted := hr.events_sorted
  unfold events_sorted at hsorted
  rw [hev, List.pairwise_cons] at hsorted
  have hirr : event_comparator e e = false := by
    rw [Bool.eq_false_iff]
    intro h
    have := event_comparator_asymm h
    rw [h] at this
    cases this
  have hmin : ∀ x ∈ s.events, event_comparator x e = false := by
    intro x hx
    rw [hev] at hx
    rcases List.mem_cons.mp hx with rfl | hx
    · exact hirr
    · exact hsorted.1 x hx
  refine ⟨event_comparator_iff, hmin, ?_⟩
  intro x hx hcat htime
  have h := hmin x hx
  rw [Bool.eq_false_iff, Ne, event_comparator_iff] at h
  have hle : ¬ (x.category < e.category) := fun hlt => h (Or.inr ⟨htime, hlt⟩)
  rw [hcat] at hle
  constructor
  · intro hc; rw [hc] at hle; exact hle (by decide)
  · intro hc; rw [hc] at hle; exact hle (by decide)

/-- Witness for C10, in the sample run with a Departure at the front. -/
theorem C10_extract_min_witness :
    (∀ a b : packet_event, event_comparator a b = true ↔
      (a.time < b.time ∨ (a.time = b.time ∧ a.category < b.category))) ∧
    (∀ x ∈ sample_pending.events,
      event_comparator x { category := DEPARTURE, id := 0, size := 2, time := 0 } = false) ∧
    (∀ x ∈ sample_pending.events, x.category = ARRIVAL →
      x.time = ({ category := DEPARTURE, id := 0, size := 2, time := 0 } : packet_event).time →
      ({ category := DEPARTURE, id := 0, size := 2, time := 0 } : packet_event).category
          ≠ DEPARTURE ∧
        ({ category := DEPARTURE, id := 0, size := 2, time := 0 } : packet_event).category
          ≠ DROPPED) :=
  C10_extract_min 1 8 sample_trace sample_pending _ _ sample_pending_reachable rfl

/-- C11: for every trace, capacity and bandwidth the engine loop, drain loop included,
terminates with no event pending, and every inserted event has been processed once:
all `n` Arrival events are counted in, the Departures dispatched are as many as the
Departures created (one per id in `buffer_log`), and the Dropped events processed are
as many as the arrivals that were not passed to `add_buffer_event`. -/
theorem C11_terminates_events_exhausted (cap bw : Int) (trace : List (ℚ × Int)) :
    ∃ s, simulate cap bw trace = some s ∧ s.events = [] ∧ s.draining = false ∧
      s.stats.packets_in = (trace.length : Int) ∧
      s.stats.packets_out = (s.buffer_log.length : Int) ∧
      s.stats.packets_lost + (s.admitted.length : Int) = s.stats.packets_in := by
  obtain ⟨s, hs, hh, hr⟩ := simulate_terminates cap bw trace
  obtain ⟨hd, hev⟩ := (halted_iff s).mp hh
  have ha := hr.arrivals_ok.2
  obtain ⟨hc1, hc2⟩ := hr.counts_ok
  unfold pending_dropped at hc2
  rw [hev] at ha hc1 hc2
  simp at ha hc1 hc2
  exact ⟨s, hs, hev, hd, ha, hc1, hc2⟩

/-- C12: whenever a step of the engine calls `add_buffer_event` (the list of admitted
ids changes), `buffer_space_left` is positive before the step; hence for a capacity
`≥ 0` every reachable state has `buffer_space_left ≥ 0` and at most `capacity`
packets in the buffer. -/
theorem C12_admit_needs_room (cap bw : Int) (trace : List (ℚ × Int)) (s s' : State)
    (hr : Reachable cap bw trace s) (hs : step bw s = some s') :
    (s'.admitted ≠ s.admitted → 0 < s.stats.buffer_space_left) ∧
    (0 ≤ cap → 0 ≤ s.stats.buffer_space_left ∧ (s.buffer.length : Int) ≤ cap) := by
  constructor
  · intro hne
    obtain ⟨mid, hm, hcase⟩ := step_cases hs
    rcases hcase with ⟨_, rfl⟩ | ⟨_, hsch⟩
    · exact admitted_micro hm hne
    · rw [(admitted_schedule hsch).1] at hne
      exact admitted_micro hm hne
  · intro hcap
    have h1 : 0 ≤ s.stats.buffer_space_left := hr.space_ok hcap
    have h2 := hr.occupancy_ok
    unfold occupancy_ok at h2
    exact ⟨h1, by omega⟩

/-- Witness for C12: the first step of the sample run admits packet 0 with one free
slot. -/
theorem C12_admit_needs_room_witness :
    (sample_first.admitted ≠ (init 1 sample_trace).admitted →
      0 < (init 1 sample_trace).stats.buffer_space_left) ∧
    ((0 : Int) ≤ 1 → 0 ≤ (init 1 sample_trace).stats.buffer_space_left ∧
      ((init 1 sample_trace).buffer.length : Int) ≤ 1) :=
  C12_admit_needs_room 1 8 sample_trace (init 1 sample_trace) sample_first Reachable.start
    sample_first_step

/-- C13: `new_event` takes the fatal branch exactly when the category is none of
ARRIVAL (0), DEPARTURE (1), DROPPED (2); otherwise it returns the event made of its
four arguments. -/
theorem C13_new_event (new_id : Int) (new_time : ℚ) (new_size : Int) (category : Int) :
    (new_event new_id new_time new_size category = none ↔
      ¬ (category = 0 ∨ category = 1 ∨ category = 2)) ∧
    ((category = 0 ∨ category = 1 ∨ category = 2) →
      new_event new_id new_time new_size category =
        some { category := category, id := new_id, size := new_size, time := new_time }) := by
  unfold new_event
  by_cases h : category = 0 ∨ category = 1 ∨ category = 2
  · simp [h]
  · simp [h]

/-- Witness for C13: a Dropped event for packet 7. -/
theorem C13_new_event_witness :
    (new_event 7 (3 / 2) 100 2 = none ↔ ¬ ((2 : Int) = 0 ∨ (2 : Int) = 1 ∨ (2 : Int) = 2)) ∧
    (((2 : Int) = 0 ∨ (2 : Int) = 1 ∨ (2 : Int) = 2) →
      new_event 7 (3 / 2) 100 2 =
        some { category := 2, id := 7, size := 100, time := 3 / 2 }) :=
  C13_new_event 7 (3 / 2) 100 2

/-- C14, as stated, fails: a run with capacity 0 and a run with bandwidth -8 are both
carried out; the record is counted in (and lost, respectively served) and a report is
produced. -/
theorem C14_bad_configuration_runs :
    (simulate 0 8 [(0, 1)]).map (fun s => print_stats s.stats) =
      some { time := 0, packets_in := 1, packets_out := 0, packets_lost := 1,
             lost_packets := 100, average_queueing_delay := 0 } ∧
    (simulate 1 (-8) [(0, 1)]).map (fun s => print_stats s.stats) =
      some { time := -1, packets_in := 1, packets_out := 1, packets_lost := 0,
             lost_packets := 0, average_queueing_delay := 0 } := by
  refine ⟨by decide!, by decide!⟩

/-- C14, amended: a run with a non-positive capacity or bandwidth is not rejected; it
ends like any other, with every record counted in, and with a non-positive capacity
every record is lost and none is served. -/
theorem C14_bad_configuration_not_rejected (cap bw : Int) (trace : List (ℚ × Int))
    (hbad : cap ≤ 0 ∨ bw ≤ 0) :
    ∃ s, simulate cap bw trace = some s ∧
      s.stats.packets_in = (trace.length : Int) ∧
      (cap ≤ 0 → s.stats.packets_lost = (trace.length : Int) ∧ s.stats.packets_out = 0 ∧
        s.buffer = []) := by
  have _ := hbad
  obtain ⟨s, hs, hh, hr⟩ := simulate_terminates cap bw trace
  obtain ⟨hd, hev⟩ := (halted_iff s).mp hh
  have ha := hr.arrivals_ok.2
  rw [hev] at ha
  simp at ha
  refine ⟨s, hs, ha, ?_⟩
  intro hcap
  obtain ⟨hb, _, hout, _⟩ := hr.starved hcap
  have hc := hr.conservation_ok
  unfold conservation_ok pending_dropped at hc
  rw [hd, hev, hb, hout] at hc
  simp at hc
  exact ⟨by omega, hout, hb⟩

/-- Witness for C14 amended, with capacity 0 on the sample trace. -/
theorem C14_bad_configuration_not_rejected_witness :
    ∃ s, simulate 0 8 sample_trace = some s ∧
      s.stats.packets_in = (sample_trace.length : Int) ∧
      ((0 : Int) ≤ 0 → s.stats.packets_lost = (sample_trace.length : Int) ∧
        s.stats.packets_out = 0 ∧ s.buffer = []) :=
  C14_bad_configuration_not_rejected 0 8 sample_trace (Or.inl (le_refl 0))

/-- C16, as stated, fails: the Dropped event is not timestamped with the clock but with
the clock converted to `double`. In the run of `rounded_drain` (capacity 1, bandwidth
80) packet 1 is drained at clock 1/10 with the buffer full and its Dropped event gets
the time 3602879701896397 / 2 ^ 55; in the outer loop of a run with capacity 2 the
Arrival of packet 3 is popped at clock 1/10 with the buffer full and its Dropped event
gets the same time. -/
theorem C16_dropped_timestamp_rounded :
    Reachable 1 80 [(0, 1), (1 / 16, 1)] rounded_drain ∧
    rounded_drain.stats.time = 1 / 10 ∧
    (drain_step rounded_drain).map (fun s => (s.stats.time, s.events)) =
      some (1 / 10,
        [{ category := DROPPED, id := 1, size := 1,
           time := 3602879701896397 / 36028797018963968 }]) ∧
    drain_step rounded_drain ≠
      some (arrival_effect_spec rounded_drain
        { category := ARRIVAL, id := 1, size := 1, time := 1 / 16 } []) ∧
    (steps 80 5 (init 2 [(0, 1), (0, 1), (3602879701896397 / 36028797018963968, 1),
        (3602879701896397 / 36028797018963968, 1)])).map
        (fun s => (s.draining, s.stats.time, s.stats.buffer_space_left)) =
      some (false, 1 / 10, 0) ∧
    (steps 80 5 (init 2 [(0, 1), (0, 1), (3602879701896397 / 36028797018963968, 1),
        (3602879701896397 / 36028797018963968, 1)])).map
        (fun s => s.events.map event_key) =
      some [(ARRIVAL, 3, 3602879701896397 / 36028797018963968),
        (DEPARTURE, 1, 3602879701896397 / 36028797018963968)] ∧
    (steps 80 6 (init 2 [(0, 1), (0, 1), (3602879701896397 / 36028797018963968, 1),
        (3602879701896397 / 36028797018963968, 1)])).map
        (fun s => (s.draining, s.stats.time, s.events.map event_key)) =
      some (false, 1 / 10,
        [(DEPARTURE, 1, 3602879701896397 / 36028797018963968),
         (DROPPED, 3, 3602879701896397 / 36028797018963968)]) := by
  refine ⟨rounded_drain_reachable, rfl, by decide!, by decide!, by decide!, by decide!,
    by decide!⟩

/-- C16, amended: the handling of an Arrival event `e` is the same state change at
both sites. The iteration of the outer loop is that change followed by the scheduling
block, and the iteration of the drain loop (for an event not after the clock) is that
change alone. The change counts the packet in and leaves clock, `packets_out`,
`packets_lost` and the queueing delay alone; with no free space the buffer is kept
and a Dropped event with the id and size of `e` is inserted, timestamped with the
current clock converted to `double` (not with the time of `e`); otherwise `e` goes to
the tail of the buffer, `buffer_space_left` drops by one and no event is inserted.
Whenever the clock converts to `double` unchanged, this is the rule as the
specification words it. -/
theorem C16_arrival_same_at_both_sites (bw : Int) (s : State) (e : packet_event)
    (rest : List packet_event) (hev : s.events = e :: rest) (hcat : e.category = ARRIVAL) :
    main_step bw s = schedule (arrival_effect s e rest) ∧
    (e.time ≤ s.stats.time → drain_step s = some (arrival_effect s e rest)) ∧
    (arrival_effect s e rest).stats.packets_in = s.stats.packets_in + 1 ∧
    (arrival_effect s e rest).stats.time = s.stats.time ∧
    (arrival_effect s e rest).stats.packets_out = s.stats.packets_out ∧
    (arrival_effect s e rest).stats.packets_lost = s.stats.packets_lost ∧
    (arrival_effect s e rest).stats.queuing_delay = s.stats.queuing_delay ∧
    (s.stats.buffer_space_left ≤ 0 →
      (arrival_effect s e rest).buffer = s.buffer ∧
      (arrival_effect s e rest).stats.buffer_space_left = s.stats.buffer_space_left ∧
      (arrival_effect s e rest).events = events_insert
        { category := DROPPED, id := e.id, size := e.size,
          time := to_double s.stats.time } rest) ∧
    (0 < s.stats.buffer_space_left →
      (arrival_effect s e rest).buffer = s.buffer ++ [e] ∧
      (arrival_effect s e rest).stats.buffer_space_left = s.stats.buffer_space_left - 1 ∧
      (arrival_effect s e rest).events = rest) ∧
    (to_double s.stats.time = s.stats.time →
      arrival_effect s e rest = arrival_effect_spec s e rest) := by
  refine ⟨?_, ?_, ?_, ?_, ?_, ?_, ?_, ?_, ?_, ?_⟩
  · unfold main_step arrival_effect
    rw [hev]
    simp only [hcat, if_true]
    split
    · rw [new_event_DROPPED]; rfl
    · rfl
  · intro hle
    unfold drain_step arrival_effect
    rw [hev]
    simp only [hcat, show ¬ (ARRIVAL = DEPARTURE) by decide, show ¬ (ARRIVAL = DROPPED) by decide,
      not_lt.mpr hle, gt_iff_lt, or_self, if_false]
    split
    · rw [new_event_DROPPED]; rfl
    · rfl
  · unfold arrival_effect; split <;> rfl
  · unfold arrival_effect; split <;> rfl
  · unfold arrival_effect; split <;> rfl
  · unfold arrival_effect; split <;> rfl
  · unfold arrival_effect; split <;> rfl
  · intro h
    unfold arrival_effect
    rw [if_pos h]
    exact ⟨rfl, rfl, rfl⟩
  · intro h
    unfold arrival_effect
    rw [if_neg (not_le.mpr h)]
    exact ⟨rfl, rfl, rfl⟩
  · intro h
    unfold arrival_effect arrival_effect_spec
    rw [h]

/-- Witness for C16 amended: packet 1 of the sample run arrives at a full buffer. -/
theorem C16_arrival_same_at_both_sites_witness :
    main_step 8 sample_first =
      schedule (arrival_effect sample_first
        { category := ARRIVAL, id := 1, size := 1, time := 0 }
        [{ category := DEPARTURE, id := 0, size := 2, time := 0 },
         { category := ARRIVAL, id := 2, size := 1, time := 3 / 2 }]) :=
  (C16_arrival_same_at_both_sites 8 sample_first
    { category := ARRIVAL, id := 1, size := 1, time := 0 }
    [{ category := DEPARTURE, id := 0, size := 2, time := 0 },
     { category := ARRIVAL, id := 2, size := 1, time := 3 / 2 }] rfl rfl).1

/-- C17: in every reachable state in which the drain loop of a Departure has just
finished (its exit test holds), every pending event has a time strictly after the
clock; so no Arrival or Dropped event, synthesized during the drain or not, is left
at or before the clock. -/
theorem C17_drain_exhausts_past_events (cap bw : Int) (trace : List (ℚ × Int)) (s : State)
    (hr : Reachable cap bw trace s) (hdr : s.draining = true)
    (hdone : drain_done s = true) :
    s.events = [] ∨ ∀ x ∈ s.events, s.stats.time < x.time :=
  Or.inr (drain_done_clock hr.departure_ok hr.events_sorted hdr hdone)

/-- Witness for C17: Scenario D at the end of the drain of packet A. -/
theorem C17_drain_exhausts_past_events_witness :
    gap_drain.events = [] ∨ ∀ x ∈ gap_drain.events, gap_drain.stats.time < x.time :=
  C17_drain_exhausts_past_events 5 1000000 [(0, 100), (10, 100)] gap_drain
    gap_drain_reachable rfl (by decide!)

/-- C18: in every reachable state, a Departure event about to be dispatched finds the
buffer non-empty with a head of the same id and size; at most one Departure is
pending; the buffer is non-empty throughout a drain; and a state that is not final
always has a successor, so `buffer.begin()` is never read and `remove_buffer_event`
never called on an empty buffer. -/
theorem C18_departure_finds_head (cap bw : Int) (trace : List (ℚ × Int)) (s : State)
    (hr : Reachable cap bw trace s) :
    (∀ e rest, s.draining = false → s.events = e :: rest → e.category = DEPARTURE →
      ∃ h brest, s.buffer = h :: brest ∧ h.id = e.id ∧ h.size = e.size) ∧
    (pending_departures s).length ≤ 1 ∧
    (s.draining = true → s.buffer ≠ []) ∧
    (halted s = false → ∃ s', step bw s = some s') := by
  have hd := hr.departure_ok
  refine ⟨?_, ?_, hd.2, fun hh => step_some bw hd hh⟩
  · intro e rest _ hev hcat
    obtain ⟨h, brest, hb, hid, hsz, _⟩ := pending_head_departure hd hev hcat
    exact ⟨h, brest, hb, hid.symm, hsz.symm⟩
  · rcases hd.1 with h | ⟨_, d, _, _, h, _⟩
    · rw [h]; simp
    · rw [h]; simp

/-- Witness for C18: the sample run with the Departure of packet 0 at the front. -/
theorem C18_departure_finds_head_witness :
    (∀ e rest, sample_pending.draining = false → sample_pending.events = e :: rest →
      e.category = DEPARTURE →
      ∃ h brest, sample_pending.buffer = h :: brest ∧ h.id = e.id ∧ h.size = e.size) ∧
    (pending_departures sample_pending).length ≤ 1 ∧
    (sample_pending.draining = true → sample_pending.buffer ≠ []) ∧
    (halted sample_pending = false → ∃ s', step 8 sample_pending = some s') :=
  C18_departure_finds_head 1 8 sample_trace sample_pending sample_pending_reachable

/-- C20: in every reachable state the cumulative queueing delay is not negative and no
step of the engine decreases it; when a Departure is dispatched the clock has reached
the arrival time of the buffer head, and the step adds exactly the clock minus that
arrival time. This holds for every trace, capacity and bandwidth. -/
theorem C20_queueing_delay_monotone (cap bw : Int) (trace : List (ℚ × Int)) (s s' : State)
    (hr : Reachable cap bw trace s) (hs : step bw s = some s') :
    0 ≤ s.stats.queuing_delay ∧ s.stats.queuing_delay ≤ s'.stats.queuing_delay ∧
    (∀ e rest h brest, s.draining = false → s.events = e :: rest →
      e.category = DEPARTURE → s.buffer = h :: brest →
      h.time ≤ s.stats.time ∧
      s'.stats.queuing_delay = s.stats.queuing_delay + (s.stats.time - h.time)) := by
  have hdel := hr.delay_ok
  refine ⟨hdel.1, ?_, ?_⟩
  · obtain ⟨mid, hm, hcase⟩ := step_cases hs
    rcases hcase with ⟨_, rfl⟩ | ⟨_, hsch⟩
    · exact delay_step_micro hdel hm
    · rw [delay_step_schedule hsch]
      exact delay_step_micro hdel hm
  · intro e rest h brest hdr hev hcat hb
    have hne : pending_departures s ≠ [] := by
      unfold pending_departures
      rw [hev, List.filter_cons]
      simp [hcat]
    refine ⟨hdel.2 hdr hne h (by rw [hb]; rfl), ?_⟩
    unfold step main_step at hs
    rw [hdr, hev] at hs
    simp only [Bool.false_eq_true, if_false, hcat,
      show ¬ (DEPARTURE = ARRIVAL) by decide, show ¬ (DEPARTURE = DROPPED) by decide,
      if_true, hb, Option.some.injEq] at hs
    rw [← hs]
    rfl

/-- Witness for C20: the Departure of packet 0 in the sample run adds 0 - 0 to the
queueing delay. -/
theorem C20_queueing_delay_monotone_witness :
    0 ≤ sample_pending.stats.queuing_delay ∧
    sample_pending.stats.queuing_delay ≤ sample_drain.stats.queuing_delay ∧
    (∀ e rest h brest, sample_pending.draining = false → sample_pending.events = e :: rest →
      e.category = DEPARTURE → sample_pending.buffer = h :: brest →
      h.time ≤ sample_pending.stats.time ∧
      sample_drain.stats.queuing_delay =
        sample_pending.stats.queuing_delay + (sample_pending.stats.time - h.time)) :=
  C20_queueing_delay_monotone 1 8 sample_trace sample_pending sample_drain
    sample_pending_reachable sample_drain_step

end Router
